import Mathlib

/-!
# logkit, parser/linuxaudit: the audit-line tokenizer and the batch parser

A shallow embedding of `parser/linuxaudit/audit.go`.

* A Go `string` is modelled as the list of its code points (`Str`), which is
  what `for idx, c := range line` reads; a byte that is not valid UTF-8 is read
  by Go as the one character U+FFFD and stands in the list as that character.
* A Go `Data` (`map[string]interface{}`) is modelled as an association list with
  one entry per key (`Data.put` overwrites in place or appends), so the number of
  entries of the map is the length of the list.  The values the parser stores
  are strings and nested `Data`.
* `Parser.parse` calls itself through `processSubLine`; the embedding runs it
  with a fuel for the depth of that recursion and returns `none` when the fuel
  is used up.
* The collaborators outside the package (the time parser and formatter, the two
  reserved field names) are the fields of `Ext`.
-/

namespace LinuxAudit

/-- A Go string, as the list of its code points. -/
abbrev Str := List Char

/-- A Go `error`, as its message. -/
abbrev Error := Str

/-- The values stored in a `Data`: a string or a nested `Data`. -/
inductive Value where
  | str (s : Str) : Value
  | data (d : List (Str × Value)) : Value

/-- The Go type `Data`, a `map[string]interface{}`. -/
abbrev Data := List (Str × Value)

/-- The map read `v, ok := data[k]` (`none` when `ok` is false). -/
def Data.get : Data → Str → Option Value
  | [], _ => none
  | (k1, v) :: t, k => if k1 = k then some v else Data.get t k

/-- The test `_, ok := data[k]`. -/
def Data.has (d : Data) (k : Str) : Bool := (Data.get d k).isSome

/-- The map write `data[k] = v`. -/
def Data.put : Data → Str → Value → Data
  | [], k, v => [(k, v)]
  | (k1, v1) :: t, k, v => if k1 = k then (k, v) :: t else (k1, v1) :: Data.put t k v

/-- The collaborators of the package that live outside it. -/
structure Ext where
  /-- The calendar time `GetTime` returns. -/
  Time : Type
  /-- The call `GetTime(timestamp)`; `none` when it returns an error. -/
  GetTime : Str → Option Time
  /-- The call `FormatWithUserOption("", 0, tm)`. -/
  FormatWithUserOption : Time → Str
  /-- The constant `KeyRawData`. -/
  KeyRawData : Str
  /-- The constant `KeyPandoraStash`. -/
  KeyPandoraStash : Str

/-- The constant `DefaultCheckKey`. -/
def DefaultCheckKey : Nat := 5

/-- The single quote. -/
def squote : Char := Char.ofNat 39

/-- The double quote. -/
def dquote : Char := Char.ofNat 34

/-- Go's `unicode.IsSpace`. -/
def isSpace (c : Char) : Bool :=
  let n := c.toNat
  (9 ≤ n && n ≤ 13) || n == 32 || n == 133 || n == 160 || n == 5760 ||
    (8192 ≤ n && n ≤ 8202) || n == 8232 || n == 8233 || n == 8239 || n == 8287 || n == 12288

/-- Go's `strings.HasSuffix`. -/
def HasSuffix (s suf : Str) : Bool := suf.isSuffixOf s

/-- Go's `strings.TrimSuffix`. -/
def TrimSuffix (s suf : Str) : Str :=
  if HasSuffix s suf then s.take (s.length - suf.length) else s

/-- Go's `strings.HasPrefix`. -/
def HasPrefix (s pre : Str) : Bool := pre.isPrefixOf s

/-- Go's `strings.TrimPrefix`. -/
def TrimPrefix (s pre : Str) : Str :=
  if HasPrefix s pre then s.drop pre.length else s

/-- Go's `strings.Index` for a separator of one character; `none` is Go's `-1`. -/
def Index : Str → Char → Option Nat
  | [], _ => none
  | x :: xs, c => if x = c then some 0 else (Index xs c).map (· + 1)

/-- Go's `strings.SplitN(s, sep, 2)` for a separator of one character. -/
def SplitN2 (s : Str) (sep : Char) : List Str :=
  match Index s sep with
  | none => [s]
  | some i => [s.take i, s.drop (i + 1)]

/-- Go's `strings.TrimSpace`. -/
def TrimSpace (s : Str) : Str :=
  ((s.dropWhile isSpace).reverse.dropWhile isSpace).reverse

/-- Go's `strconv.Itoa` on a number that is not negative. -/
def Itoa (n : Nat) : Str := Nat.toDigits 10 n

/-- The text `":"`. -/
def colon : Str := [':']

/-- The text `"msg"`. -/
def msgKey : Str := ['m', 's', 'g']

/-- The text `"audit("`. -/
def auditOpen : Str := ['a', 'u', 'd', 'i', 't', '(']

/-- The text `"msg_timestamp"`. -/
def msgTimestampKey : Str := ['m', 's', 'g', '_', 't', 'i', 'm', 'e', 's', 't', 'a', 'm', 'p']

/-- The text `"msg_id"`. -/
def msgIdKey : Str := ['m', 's', 'g', '_', 'i', 'd']

/-- The numbered alternate `key + "_" + strconv.Itoa(i)`. -/
def altKey (key : Str) (i : Nat) : Str := key ++ ['_'] ++ Itoa i

/-- The loop of `setData`: `n` iterations are left, `i` is the loop counter and
`finalKey` the key probed next.  When the loop ends the value goes to `key`. -/
def setDataLoop (key : Str) (value : Value) : Nat → Nat → Str → Data → Data
  | 0, _, _, data => Data.put data key value
  | n + 1, i, finalKey, data =>
    if Data.has data finalKey then setDataLoop key value n (i + 1) (altKey key i) data
    else Data.put data finalKey value

/-- The function `setData`. -/
def setData (key : Str) (value : Value) (data : Data) : Data :=
  if key = [] then data
  else if !Data.has data key then Data.put data key value
  else setDataLoop key value DefaultCheckKey 1 (altKey key 1) data

/-- The function `getTimestampID`: the result flag and the record after the call. -/
def getTimestampID (E : Ext) (tmp : Str) (data : Data) : Bool × Data :=
  let tmp := TrimPrefix tmp auditOpen
  let tmp := TrimSuffix tmp [')']
  match SplitN2 tmp ':' with
  | [arr0, arr1] =>
    let timestamp :=
      match Index arr0 '.' with
      | some idx => arr0.take idx ++ arr0.drop (idx + 1)
      | none => TrimSpace arr0
    let data :=
      match E.GetTime timestamp with
      | none => Data.put data msgTimestampKey (Value.str (TrimSpace arr0))
      | some tm => Data.put data msgTimestampKey (Value.str (E.FormatWithUserOption tm))
    (true, Data.put data msgIdKey (Value.str (TrimSpace arr1)))
  | _ => (false, data)

/-- The function `processSpace`. -/
def processSpace (E : Ext) (key tmp : Str) (data : Data) : Data :=
  if key = [] then data
  else
    let tmp := if HasSuffix tmp colon then TrimSuffix tmp colon else tmp
    let r := if key = msgKey ∧ HasPrefix tmp auditOpen = true then getTimestampID E tmp data
      else (false, data)
    if r.1 then r.2 else setData key (Value.str (TrimSuffix tmp colon)) r.2

/-- The method `processSubLine`; `sub` is the recursive call of `parse`, and the
result is `none` only when that call ran out of fuel. -/
def processSubLine (sub : Str → Option (Data × Option Error))
    (tmp tmpLine key : Str) (data : Data) : Option Data :=
  if key = [] then some data
  else if tmp ≠ [] then some (setData key (Value.str (TrimSuffix tmp colon)) data)
  else
    match Index tmpLine squote with
    | none => some data
    | some suffix =>
      match sub (tmpLine.take (suffix + 1)) with
      | none => none
      | some (value, none) => some (setData key (Value.data value) data)
      | some (_, some _) => some data

/-- The body of `parse`: the loop over the characters that are left, with the
variables `data`, `tmp`, `key` and the quote flag (Go's `prefix`), and then the
statements after the loop. -/
def parseLoop (E : Ext) (sub : Str → Option (Data × Option Error)) :
    Str → Data → Str → Str → Bool → Option Data
  | [], data, tmp, key, _ =>
    if key ≠ [] then
      some (setData key (Value.str (if HasSuffix tmp colon then TrimSuffix tmp colon else tmp)) data)
    else some data
  | c :: rest, data, tmp, key, pfx =>
    match (if c = squote then
        (processSubLine sub tmp rest key data).map (fun d => (d, ([] : Str), ([] : Str), !pfx))
      else some (data, tmp, key, pfx)) with
    | none => none
    | some (data, tmp, key, pfx) =>
      if pfx || c = dquote then parseLoop E sub rest data tmp key pfx
      else if c = '=' then parseLoop E sub rest data [] tmp pfx
      else if isSpace c then parseLoop E sub rest (processSpace E key tmp data) [] [] pfx
      else parseLoop E sub rest data (tmp ++ [c]) key pfx

/-- The method `Parser.parse` with a bound on the depth of its recursion. -/
def parseFuel (E : Ext) : Nat → Str → Option (Data × Option Error)
  | 0, _ => none
  | fuel + 1, line => (parseLoop E (parseFuel E fuel) line [] [] [] false).map (fun d => (d, none))

/-- The method `Parser.parse`: every recursive call is on a shorter text, so the
length of the line bounds the depth. -/
def parse (E : Ext) (line : Str) : Option (Data × Option Error) :=
  parseFuel E (line.length + 1) line

/-- The result of `Parser.parse` as the worker receives it.  `parse` returns on
every line (`parseFuel_total` below), so the default is never taken. -/
def parseD (E : Ext) (line : Str) : Data × Option Error :=
  (parse E line).getD ([], none)

/-- The type `Parser`. -/
structure Parser where
  name : Str
  disableRecordErrData : Bool
  numRoutine : Int
  keepRawData : Bool

/-- Modelled from the spec: the type `parser.ParseInfo` (package `parser`, not
under src), a line and its original index. -/
structure ParseInfo where
  Line : Str
  Index : Nat

/-- Modelled from the spec: the type `parser.ParseResult` (package `parser`, not
under src), the outcome of one line: its text, its original index, and the
record or the error of the tokenizer. -/
structure ParseResult where
  Line : Str
  Index : Nat
  Err : Option Error
  Data : Data

/-- Modelled from the spec: the type `StatsError` (package `utils/models`, not
under src): the success count, the error count, the last error message and the
skipped original indices. -/
structure StatsError where
  Errors : Nat
  Success : Nat
  LastError : Str
  DatasourceSkipIndex : List Nat

/-- The zero value of `ParseResult`, which `make(parser.ParseResultSlice, lineLen)`
puts in every slot. -/
def ParseResult.zero : ParseResult := { Line := [], Index := 0, Err := none, Data := [] }

/-- Modelled from the spec: what a worker (`parser.ParseLine`, package `parser`,
not under src) does with one item of the work channel.  It is called with
`trimSpace = true` and `handlerFunc = p.parse`: the worker trims the line, sends
a blank line back without a record, and otherwise runs the tokenizer on the
trimmed line and sends the index with the record or the error. -/
def ParseLine (trimSpace : Bool) (handlerFunc : Str → Data × Option Error)
    (info : ParseInfo) : ParseResult :=
  let line := if trimSpace then TrimSpace info.Line else info.Line
  if line.length = 0 then { Line := line, Index := info.Index, Err := none, Data := [] }
  else { Line := line, Index := info.Index, Err := (handlerFunc line).2, Data := (handlerFunc line).1 }

/-- The value of `numRoutine` after line 58: the number of workers started is
this number when it is positive and zero otherwise. -/
def numWorkers (p : Parser) (lineLen : Nat) : Int :=
  if (lineLen : Int) < p.numRoutine then (lineLen : Int) else p.numRoutine

/-- The outcomes in the order the collector receives them from `resultChan`.
`order` lists the original indices in the order their outcomes arrive: with at
least one worker every line is sent, taken by one worker and answered once, so
`order` is a permutation of the indices; with no worker nothing arrives. -/
def arrivals (E : Ext) (p : Parser) (lines : List Str) (order : List Nat) : List ParseResult :=
  if 0 < numWorkers p lines.length then
    order.filterMap (fun i =>
      (lines.get? i).map (fun l => ParseLine true (parseD E) { Line := l, Index := i }))
  else []

/-- The collector loop (lines 80-83): every outcome is written into the slot of
its index. -/
def collect (lineLen : Nat) (rs : List ParseResult) : List ParseResult :=
  rs.foldl (fun slice r => slice.set r.Index r) (List.replicate lineLen ParseResult.zero)

/-- The assignment `xs[i] = x` to a Go slice; `none` is the index-out-of-range panic. -/
def writeAt {α : Type} (xs : List α) (i : Nat) (x : α) : Option (List α) :=
  if i < xs.length then some (xs.set i x) else none

/-- The variables of the aggregation pass: the pre-sized `datas`, `dataIndex`,
the stats object (with the pre-sized `DatasourceSkipIndex`) and `datasourceIndex`. -/
structure AggState where
  datas : List Data
  dataIndex : Nat
  se : StatsError
  datasourceIndex : Nat

/-- The state before the aggregation loop (lines 48-49 and 85-87). -/
def AggState.init (lineLen : Nat) : AggState :=
  { datas := List.replicate lineLen [],
    dataIndex := 0,
    se := { Errors := 0, Success := 0, LastError := [],
            DatasourceSkipIndex := List.replicate lineLen 0 },
    datasourceIndex := 0 }

/-- The statement pair `se.DatasourceSkipIndex[datasourceIndex] = idx; datasourceIndex++`. -/
def AggState.skip (s : AggState) (idx : Nat) : Option AggState :=
  (writeAt s.se.DatasourceSkipIndex s.datasourceIndex idx).map (fun l =>
    { s with se := { s.se with DatasourceSkipIndex := l }, datasourceIndex := s.datasourceIndex + 1 })

/-- The statement pair `datas[dataIndex] = d; dataIndex++`. -/
def AggState.emit (s : AggState) (d : Data) : Option AggState :=
  (writeAt s.datas s.dataIndex d).map (fun l =>
    { s with datas := l, dataIndex := s.dataIndex + 1 })

/-- The body of the aggregation loop (lines 89-124) for one outcome. -/
def aggStep (E : Ext) (p : Parser) (s : AggState) (r : ParseResult) : Option AggState :=
  if r.Line.length = 0 then s.skip r.Index
  else
    match r.Err with
    | some err =>
      let s1 : AggState := { s with se := { s.se with Errors := s.se.Errors + 1, LastError := err } }
      let errData : Data := []
      let errData := if !p.disableRecordErrData then
        Data.put errData E.KeyPandoraStash (Value.str r.Line) else errData
      let s2 := if !p.disableRecordErrData then some s1
        else if !p.keepRawData then s1.skip r.Index else some s1
      let errData := if p.keepRawData then
        Data.put errData E.KeyRawData (Value.str r.Line) else errData
      match s2 with
      | none => none
      | some s2 =>
        if !p.disableRecordErrData || p.keepRawData then s2.emit errData else some s2
    | none =>
      if r.Data.length < 1 then
        some { s with se := { s.se with
          LastError := "parsed no data by line ".toList ++ r.Line, Errors := s.se.Errors + 1 } }
      else
        let s1 : AggState := { s with se := { s.se with Success := s.se.Success + 1 } }
        let d := if p.keepRawData then Data.put r.Data E.KeyRawData (Value.str r.Line) else r.Data
        s1.emit d

/-- The aggregation loop (lines 88-125) over the outcomes that are left. -/
def aggLoop (E : Ext) (p : Parser) : List ParseResult → AggState → Option AggState
  | [], s => some s
  | r :: rs, s =>
    match aggStep E p s r with
    | none => none
    | some s1 => aggLoop E p rs s1

/-- The method `Parser.Parse` up to line 128: the output rows and the stats
object, `none` when an index runs out of its slice. -/
def ParseStats (E : Ext) (p : Parser) (lines : List Str) (order : List Nat) :
    Option (List Data × StatsError) :=
  (aggLoop E p (collect lines.length (arrivals E p lines order)) (AggState.init lines.length)).map
    (fun s => (s.datas.take s.dataIndex,
      { s.se with DatasourceSkipIndex := s.se.DatasourceSkipIndex.take s.datasourceIndex }))

/-- The method `Parser.Parse`: the rows and the returned error, which is `nil`
(`none`) or the stats object. -/
def Parse (E : Ext) (p : Parser) (lines : List Str) (order : List Nat) :
    Option (List Data × Option StatsError) :=
  (ParseStats E p lines order).map
    (fun r => (r.1, if r.2.Errors = 0 then none else some r.2))

/-- A character that is no white space, no `=` and no quote. -/
def plainChar (c : Char) : Bool :=
  !isSpace c && c != '=' && c != squote && c != dquote

/-- A text free of white space, `=` and quotes. -/
abbrev plain (s : Str) : Prop := ∀ c ∈ s, plainChar c = true

/-- The text `key=value` of a field. -/
def fieldText (f : Str × Str) : Str := f.1 ++ '=' :: f.2

/-- The line made of the fields `key=value`, one space between two of them. -/
def joinFields : List (Str × Str) → Str
  | [] => []
  | [f] => fieldText f
  | f :: g :: fs => fieldText f ++ ' ' :: joinFields (g :: fs)

/-- The value a field stores: the text with one trailing `:` removed. -/
def stored (v : Str) : Value := Value.str (TrimSuffix v colon)

/-- A time library for the examples: it reads a text of decimal digits as the
time and prints it as `T` followed by those digits. -/
def demoExt : Ext where
  Time := Str
  GetTime := fun s => if s ≠ [] ∧ s.all Char.isDigit then some s else none
  FormatWithUserOption := fun t => 'T' :: t
  KeyRawData := ['r', 'a', 'w', '_', 'd', 'a', 't', 'a']
  KeyPandoraStash := ['p', 'a', 'n', 'd', 'o', 'r', 'a', '_', 's', 't', 'a', 's', 'h']

/-- The line made of the fields `(key, value, separator)`: every field is
followed by its separator. -/
def joinSep : List (Str × Str × Str) → Str
  | [] => []
  | (k, v, sep) :: rest => fieldText (k, v) ++ sep ++ joinSep rest

/-- A line of white-space-separated plain fields: keys and values are plain,
separators are white space, and only the last field may have an empty one. -/
abbrev wellSeparated (items : List (Str × Str × Str)) : Prop :=
  (∀ it ∈ items, plain it.1 ∧ plain it.2.1 ∧ ∀ c ∈ it.2.2, isSpace c = true)
    ∧ ∀ it ∈ items.dropLast, it.2.2 ≠ []

/-- What one field of a line stores: a field followed by white space goes through
`processSpace`, the field that ends the line through the statements after the
loop of `parse`. -/
def itemEffect (E : Ext) (it : Str × Str × Str) (d : Data) : Data :=
  if it.2.2 = [] then setData it.1 (stored it.2.1) d else processSpace E it.1 it.2.1 d

/-- What a line of white-space-separated fields stores. -/
def storeItems (E : Ext) (items : List (Str × Str × Str)) (d : Data) : Data :=
  items.foldl (fun d it => itemEffect E it d) d

/-- The field `key=value` cannot change the entry of `j` through the timestamp
extraction: it does not trigger it, or `j` is none of the two derived keys. -/
abbrev leavesKey (key value j : Str) : Prop :=
  ¬ (key = msgKey ∧ HasPrefix value auditOpen = true) ∨ (j ≠ msgTimestampKey ∧ j ≠ msgIdKey)

/-- What a line of plain fields stores: every field but the last goes through
`processSpace`, the last one through the statements after the loop of `parse`. -/
def storeFields (E : Ext) : List (Str × Str) → Data → Data
  | [], d => d
  | [f], d => setData f.1 (stored f.2) d
  | f :: g :: fs, d => storeFields E (g :: fs) (processSpace E f.1 f.2 d)

/-- The key `setData` writes to when `key` is occupied: the first free one of
`key_1 .. key_4`, and `key` itself when none is free. -/
def firstFree (key : Str) (d : Data) : Str :=
  if Data.has d (altKey key 1) = false then altKey key 1
  else if Data.has d (altKey key 2) = false then altKey key 2
  else if Data.has d (altKey key 3) = false then altKey key 3
  else if Data.has d (altKey key 4) = false then altKey key 4
  else key

/-- The output row of one outcome, if it has one (lines 89-124). -/
def rowOf (E : Ext) (p : Parser) (r : ParseResult) : Option Data :=
  if r.Line.length = 0 then none
  else
    match r.Err with
    | some _ =>
      if !p.disableRecordErrData || p.keepRawData then
        some ((if p.keepRawData then fun d => Data.put d E.KeyRawData (Value.str r.Line) else id)
          (if !p.disableRecordErrData then
            Data.put [] E.KeyPandoraStash (Value.str r.Line) else []))
      else none
    | none =>
      if r.Data.length < 1 then none
      else some (if p.keepRawData then Data.put r.Data E.KeyRawData (Value.str r.Line) else r.Data)

/-- The index one outcome adds to the skip list, if it adds one. -/
def skipOf (p : Parser) (r : ParseResult) : Option Nat :=
  if r.Line.length = 0 then some r.Index
  else
    match r.Err with
    | some _ => if p.disableRecordErrData && !p.keepRawData then some r.Index else none
    | none => none

/-- The outcome counts as an error: a non-blank line with a tokenizer error or
with an empty record. -/
def isErrorOutcome (r : ParseResult) : Bool :=
  r.Line.length != 0 && (r.Err.isSome || r.Data.length < 1)

/-- The outcome counts as a success: a non-blank line, no error, a record with
at least one entry. -/
def isSuccessOutcome (r : ParseResult) : Bool :=
  r.Line.length != 0 && r.Err.isNone && 1 ≤ r.Data.length

/-- The outcome is a non-blank line parsed without error into an empty record. -/
def isEmptyOutcome (r : ParseResult) : Bool :=
  r.Line.length != 0 && r.Err.isNone && r.Data.length < 1

/-- The outcomes of the lines in input order, the first line having index `i`. -/
def outcomesFrom (E : Ext) : Nat → List Str → List ParseResult
  | _, [] => []
  | i, l :: ls => ParseLine true (parseD E) { Line := l, Index := i } :: outcomesFrom E (i + 1) ls

/-- What one step of the aggregation loop does to the rows and skipped indices
written so far, and to the counters. -/
structure StepsTo (E : Ext) (p : Parser) (s s1 : AggState) (r : ParseResult) : Prop where
  datasLen : s1.datas.length = s.datas.length
  skipLen : s1.se.DatasourceSkipIndex.length = s.se.DatasourceSkipIndex.length
  dataIndex : s1.dataIndex = s.dataIndex + (rowOf E p r).toList.length
  skipIndex : s1.datasourceIndex = s.datasourceIndex + (skipOf p r).toList.length
  rows : s1.datas.take s1.dataIndex = s.datas.take s.dataIndex ++ (rowOf E p r).toList
  skips : s1.se.DatasourceSkipIndex.take s1.datasourceIndex
    = s.se.DatasourceSkipIndex.take s.datasourceIndex ++ (skipOf p r).toList
  errors : s1.se.Errors = s.se.Errors + (if isErrorOutcome r then 1 else 0)
  success : s1.se.Success = s.se.Success + (if isSuccessOutcome r then 1 else 0)

/-- What the aggregation loop does over a list of outcomes. -/
structure RunsTo (E : Ext) (p : Parser) (s s1 : AggState) (rs : List ParseResult) : Prop where
  datasLen : s1.datas.length = s.datas.length
  skipLen : s1.se.DatasourceSkipIndex.length = s.se.DatasourceSkipIndex.length
  dataIndex : s1.dataIndex = s.dataIndex + (rs.filterMap (rowOf E p)).length
  skipIndex : s1.datasourceIndex = s.datasourceIndex + (rs.filterMap (skipOf p)).length
  rows : s1.datas.take s1.dataIndex = s.datas.take s.dataIndex ++ rs.filterMap (rowOf E p)
  skips : s1.se.DatasourceSkipIndex.take s1.datasourceIndex
    = s.se.DatasourceSkipIndex.take s.datasourceIndex ++ rs.filterMap (skipOf p)
  errors : s1.se.Errors = s.se.Errors + rs.countP isErrorOutcome
  success : s1.se.Success = s.se.Success + rs.countP isSuccessOutcome

/-- The number of workers `Parser.Parse` starts: the iterations of the loop
`for i := 0; i < numRoutine; i++` (lines 60-63). -/
def startedWorkers (p : Parser) (lineLen : Nat) : Nat := (numWorkers p lineLen).toNat

/-- The function `NewParser`; the three values read from the configuration and
the variable `MaxProcs` (package `utils/models`, not under src) are its
arguments. -/
def NewParser (name : Str) (disableRecordErrData keepRawData : Bool) (MaxProcs : Int) : Parser :=
  { name := name,
    disableRecordErrData := disableRecordErrData,
    numRoutine := if MaxProcs = 0 then 1 else MaxProcs,
    keepRawData := keepRawData }

/-- The indices, counted from `j`, of the lines that are blank after trimming. -/
def blankFrom : Nat → List Str → List Nat
  | _, [] => []
  | j, l :: ls => if (TrimSpace l).length = 0 then j :: blankFrom (j + 1) ls else blankFrom (j + 1) ls

/-- A character that is neither white space, nor `=`, nor a double quote. -/
def cleanChar (c : Char) : Bool := !isSpace c && c != '=' && c != dquote

/-- A text without white space, `=` and double quote. -/
abbrev clean (s : Str) : Prop := ∀ c ∈ s, cleanChar c = true

/-- The value is a string. -/
def Value.isStr : Value → Bool
  | Value.str _ => true
  | Value.data _ => false

/-- Every value of the record is a string. -/
def flat (d : Data) : Bool := d.all (fun e => e.2.isStr)

/-- Every value of the record is a string or a record whose values are all
strings. -/
def depthOne (d : Data) : Bool :=
  d.all (fun e =>
    match e.2 with
    | Value.str _ => true
    | Value.data d1 => flat d1)

/-- The keys of the record and its string values are clean, but for a string
the time formatter printed, which stands under `msg_timestamp`. -/
def cleanRecord (E : Ext) (d : Data) : Prop :=
  ∀ k v, (k, v) ∈ d →
    clean k ∧ ∀ s, v = Value.str s →
      clean s ∨ (k = msgTimestampKey ∧ ∃ tm : E.Time, s = E.FormatWithUserOption tm)

/-- An entry with a clean key and a string value that is clean or printed by the
time formatter under `msg_timestamp`. -/
def leafOK (E : Ext) (e : Str × Value) : Prop :=
  clean e.1 ∧ ∃ s, e.2 = Value.str s ∧
    (clean s ∨ (e.1 = msgTimestampKey ∧ ∃ tm : E.Time, s = E.FormatWithUserOption tm))

/-- An entry that is such a string entry, or has a clean key and a record of
such string entries as value. -/
def entryOK (E : Ext) (e : Str × Value) : Prop :=
  leafOK E e ∨ (clean e.1 ∧ ∃ d1 : Data, e.2 = Value.data d1 ∧ ∀ e1 ∈ d1, leafOK E e1)

/-! # Theorems -/

/-! ## Maps -/

theorem Data.get_put_self (d : Data) (k : Str) (v : Value) :
    Data.get (Data.put d k v) k = some v := by
  induction d with
  | nil => simp [Data.put, Data.get]
  | cons a t ih =>
    obtain ⟨k1, v1⟩ := a
    by_cases h : k1 = k <;> simp [Data.put, Data.get, h, ih]

theorem Data.get_put_ne (d : Data) {k j : Str} (v : Value) (h : j ≠ k) :
    Data.get (Data.put d k v) j = Data.get d j := by
  induction d with
  | nil => simp [Data.put, Data.get, Ne.symm h]
  | cons a t ih =>
    obtain ⟨k1, v1⟩ := a
    by_cases h1 : k1 = k
    · subst h1
      simp [Data.put, Data.get, Ne.symm h]
    · by_cases h2 : k1 = j
      · subst h2
        simp [Data.put, Data.get, h1]
      · simp [Data.put, Data.get, h1, h2, ih]

theorem Data.put_of_get_none (d : Data) (k : Str) (v : Value) (h : Data.get d k = none) :
    Data.put d k v = d ++ [(k, v)] := by
  induction d with
  | nil => rfl
  | cons a t ih =>
    obtain ⟨k1, v1⟩ := a
    by_cases h1 : k1 = k
    · simp [Data.get, h1] at h
    · simp only [Data.get, h1, if_false] at h
      simp [Data.put, h1, ih h]

theorem Data.has_eq_false_iff (d : Data) (k : Str) :
    Data.has d k = false ↔ Data.get d k = none := by
  simp [Data.has]

theorem Data.has_eq_true_iff (d : Data) (k : Str) :
    Data.has d k = true ↔ ∃ v, Data.get d k = some v := by
  simp [Data.has, Option.isSome_iff_exists]

theorem Data.get_append_single (d : Data) (k j : Str) (v : Value) :
    Data.get (d ++ [(k, v)]) j = (Data.get d j).orElse (fun _ => if k = j then some v else none) := by
  induction d with
  | nil => simp [Data.get]
  | cons a t ih =>
    obtain ⟨k1, v1⟩ := a
    by_cases h1 : k1 = j <;> simp [Data.get, h1, ih]

theorem Data.get_eq_none_of_not_mem (d : Data) (k : Str) (h : k ∉ d.map Prod.fst) :
    Data.get d k = none := by
  induction d with
  | nil => rfl
  | cons a t ih =>
    obtain ⟨k1, v1⟩ := a
    simp only [List.map_cons, List.mem_cons, not_or] at h
    simp [Data.get, Ne.symm h.1, ih h.2]

/-! ## Strings -/

theorem HasSuffix_colon_nil : HasSuffix [] colon = false := by
  simp [HasSuffix, colon]

theorem HasSuffix_colon_snoc (s : Str) (c : Char) :
    HasSuffix (s ++ [c]) colon = decide (c = ':') := by
  by_cases h : c = ':'
  · subst h
    simp only [HasSuffix, colon, decide_True]
    rw [List.isSuffixOf_iff_suffix]
    exact List.suffix_append s [':']
  · simp only [h, decide_False]
    rw [Bool.eq_false_iff]
    intro hs
    simp only [HasSuffix, colon] at hs
    rw [List.isSuffixOf_iff_suffix] at hs
    obtain ⟨t, ht⟩ := hs
    have := congrArg List.getLast? ht
    simp at this
    exact h this.symm

theorem TrimSuffix_colon_nil : TrimSuffix [] colon = [] := by
  simp [TrimSuffix]

theorem TrimSuffix_colon_snoc (s : Str) (c : Char) :
    TrimSuffix (s ++ [c]) colon = if c = ':' then s else s ++ [c] := by
  unfold TrimSuffix
  rw [HasSuffix_colon_snoc]
  by_cases h : c = ':' <;> simp [h, colon]

/-- The guarded strip of `parse` and `processSpace` is `TrimSuffix`. -/
theorem strip_guard (s : Str) :
    (if HasSuffix s colon then TrimSuffix s colon else s) = TrimSuffix s colon := by
  unfold TrimSuffix
  split <;> simp [*]

theorem TrimSuffix_initial (s suf : Str) : TrimSuffix s suf <+: s := by
  unfold TrimSuffix
  split
  · exact List.take_prefix _ _
  · exact List.prefix_refl _

theorem TrimSuffix_twice (s : Str) (h : HasSuffix s [':', ':'] = false) :
    TrimSuffix (TrimSuffix s colon) colon = TrimSuffix s colon := by
  rcases List.eq_nil_or_concat s with rfl | ⟨t, c, rfl⟩
  · simp [TrimSuffix_colon_nil]
  · rw [List.concat_eq_append] at *
    rw [TrimSuffix_colon_snoc]
    by_cases hc : c = ':'
    · subst hc
      simp only [if_true]
      rcases List.eq_nil_or_concat t with rfl | ⟨u, b, rfl⟩
      · simp [TrimSuffix_colon_nil]
      · rw [List.concat_eq_append] at *
        rw [TrimSuffix_colon_snoc]
        have hb : b ≠ ':' := by
          rintro rfl
          have : HasSuffix (u ++ [':'] ++ [':']) [':', ':'] = true := by
            simp only [HasSuffix]
            rw [List.isSuffixOf_iff_suffix]
            exact ⟨u, by simp⟩
          rw [this] at h
          exact Bool.noConfusion h
        simp [hb]
    · simp only [hc, if_false]
      rw [TrimSuffix_colon_snoc]
      simp [hc]

theorem HasPrefix_of_TrimSuffix (s suf pre : Str) (h : HasPrefix (TrimSuffix s suf) pre = true) :
    HasPrefix s pre = true := by
  simp only [HasPrefix] at *
  rw [List.isPrefixOf_iff_prefix] at *
  exact h.trans (TrimSuffix_initial s suf)

/-! ## The collision resolver -/

theorem setData_of_absent (k : Str) (v : Value) (d : Data) (hk : k ≠ [])
    (h : Data.get d k = none) : setData k v d = d ++ [(k, v)] := by
  simp [setData, hk, Data.has, h, Data.put_of_get_none]

theorem setData_nil_key (v : Value) (d : Data) : setData [] v d = d := by
  simp [setData]

theorem setDataLoop_get_other (key : Str) (v : Value) (d : Data) (j : Str) (hj : j ≠ key)
    (hp : Data.has d j = true) (n i : Nat) (fk : Str) :
    Data.get (setDataLoop key v n i fk d) j = Data.get d j := by
  induction n generalizing i fk with
  | zero => simp [setDataLoop, Data.get_put_ne d v hj]
  | succ n ih =>
    unfold setDataLoop
    by_cases hf : Data.has d fk = true
    · simp only [hf, if_true]
      exact ih _ _
    · simp only [hf, if_false]
      apply Data.get_put_ne
      rintro rfl
      exact hf hp

theorem setData_get_other (key : Str) (v : Value) (d : Data) (j : Str) (hj : j ≠ key)
    (hp : Data.has d j = true) : Data.get (setData key v d) j = Data.get d j := by
  unfold setData
  split
  · rfl
  · split
    · exact Data.get_put_ne d v hj
    · exact setDataLoop_get_other key v d j hj hp _ _ _

/-! ## Field completion -/

theorem processSpace_plain (E : Ext) (k v : Str) (d : Data)
    (hmsg : ¬ (k = msgKey ∧ HasPrefix v auditOpen = true))
    (hcc : HasSuffix v [':', ':'] = false) :
    processSpace E k v d = setData k (stored v) d := by
  unfold processSpace
  by_cases hk : k = []
  · simp [hk, setData_nil_key]
  · have hno : ¬ (k = msgKey ∧ HasPrefix (TrimSuffix v colon) auditOpen = true) :=
      fun h => hmsg ⟨h.1, HasPrefix_of_TrimSuffix _ _ _ h.2⟩
    simp only [hk, if_false, strip_guard, hno, TrimSuffix_twice v hcc, stored]
    simp

/-! ## The scan over plain text -/

theorem isSpace_squote : isSpace squote = false := by decide

theorem isSpace_dquote : isSpace dquote = false := by decide

theorem isSpace_eq : isSpace '=' = false := by decide

theorem parseLoop_nil (E : Ext) (sub : Str → Option (Data × Option Error))
    (data : Data) (tmp key : Str) (pfx : Bool) :
    parseLoop E sub [] data tmp key pfx = some (setData key (stored tmp) data) := by
  by_cases hk : key = []
  · simp [parseLoop, hk, setData_nil_key]
  · simp [parseLoop, hk, strip_guard, stored]

theorem parseLoop_plainChar (E : Ext) (sub : Str → Option (Data × Option Error))
    (c : Char) (rest : Str) (data : Data) (tmp key : Str) (hc : plainChar c = true) :
    parseLoop E sub (c :: rest) data tmp key false
      = parseLoop E sub rest data (tmp ++ [c]) key false := by
  simp only [plainChar, Bool.and_eq_true, Bool.not_eq_true', bne_iff_ne, ne_eq] at hc
  obtain ⟨⟨⟨h1, h2⟩, h3⟩, h4⟩ := hc
  simp [parseLoop, h1, h2, h3, h4]

theorem parseLoop_plain (E : Ext) (sub : Str → Option (Data × Option Error))
    (w rest : Str) (data : Data) (tmp key : Str) (hw : plain w) :
    parseLoop E sub (w ++ rest) data tmp key false
      = parseLoop E sub rest data (tmp ++ w) key false := by
  induction w generalizing tmp with
  | nil => simp
  | cons c w ih =>
    have hc : plainChar c = true := hw c (List.mem_cons_self _ _)
    have hw1 : plain w := fun x hx => hw x (List.mem_cons_of_mem _ hx)
    rw [List.cons_append, parseLoop_plainChar E sub c _ data tmp key hc, ih _ hw1]
    simp

theorem parseLoop_assign (E : Ext) (sub : Str → Option (Data × Option Error))
    (rest : Str) (data : Data) (tmp key : Str) :
    parseLoop E sub ('=' :: rest) data tmp key false
      = parseLoop E sub rest data [] tmp false := by
  have h1 : ('=' : Char) ≠ squote := by decide
  have h2 : ('=' : Char) ≠ dquote := by decide
  simp [parseLoop, h1, h2]

theorem parseLoop_space (E : Ext) (sub : Str → Option (Data × Option Error))
    (c : Char) (rest : Str) (data : Data) (tmp key : Str) (hc : isSpace c = true) :
    parseLoop E sub (c :: rest) data tmp key false
      = parseLoop E sub rest (processSpace E key tmp data) [] [] false := by
  have h1 : c ≠ squote := by
    rintro rfl
    rw [isSpace_squote] at hc
    exact Bool.noConfusion hc
  have h2 : c ≠ dquote := by
    rintro rfl
    rw [isSpace_dquote] at hc
    exact Bool.noConfusion hc
  have h3 : c ≠ '=' := by
    rintro rfl
    rw [isSpace_eq] at hc
    exact Bool.noConfusion hc
  simp [parseLoop, h1, h2, h3, hc]

theorem parseLoop_field (E : Ext) (sub : Str → Option (Data × Option Error))
    (k v : Str) (c : Char) (rest : Str) (data : Data)
    (hk : plain k) (hv : plain v) (hc : isSpace c = true) :
    parseLoop E sub (fieldText (k, v) ++ c :: rest) data [] [] false
      = parseLoop E sub rest (processSpace E k v data) [] [] false := by
  simp only [fieldText, List.append_assoc, List.cons_append]
  rw [parseLoop_plain E sub k _ data [] [] hk, parseLoop_assign,
    parseLoop_plain E sub v _ data [] _ hv, parseLoop_space E sub c rest data _ _ hc]
  simp

theorem parseLoop_field_last (E : Ext) (sub : Str → Option (Data × Option Error))
    (k v : Str) (data : Data) (hk : plain k) (hv : plain v) :
    parseLoop E sub (fieldText (k, v)) data [] [] false
      = some (setData k (stored v) data) := by
  have := parseLoop_plain E sub k ('=' :: (v ++ [])) data [] [] hk
  simp only [fieldText, List.append_nil] at this ⊢
  rw [this, parseLoop_assign]
  have h2 := parseLoop_plain E sub v [] data [] ([] ++ k) hv
  simp only [List.append_nil] at h2
  rw [h2, parseLoop_nil]
  simp

theorem parseLoop_joinFields (E : Ext) (sub : Str → Option (Data × Option Error))
    (fs : List (Str × Str)) (data : Data)
    (hplain : ∀ f ∈ fs, plain f.1 ∧ plain f.2) :
    parseLoop E sub (joinFields fs) data [] [] false = some (storeFields E fs data) := by
  induction fs generalizing data with
  | nil => simp [joinFields, storeFields, parseLoop_nil, setData_nil_key]
  | cons f fs ih =>
    obtain ⟨k, v⟩ := f
    have hf := hplain (k, v) (List.mem_cons_self _ _)
    cases fs with
    | nil => simpa [joinFields, storeFields] using parseLoop_field_last E sub k v data hf.1 hf.2
    | cons g gs =>
      have hsp : isSpace ' ' = true := by decide
      simp only [joinFields, storeFields]
      rw [parseLoop_field E sub k v ' ' _ data hf.1 hf.2 hsp]
      exact ih _ (fun f hf => hplain f (List.mem_cons_of_mem _ hf))

theorem parse_joinFields (E : Ext) (fs : List (Str × Str))
    (hplain : ∀ f ∈ fs, plain f.1 ∧ plain f.2) :
    parse E (joinFields fs) = some (storeFields E fs [], none) := by
  simp [parse, parseFuel, parseLoop_joinFields E _ fs [] hplain]

theorem storeFields_distinct (E : Ext) (fs : List (Str × Str)) (d : Data)
    (hkey : ∀ f ∈ fs, f.1 ≠ [])
    (hnodup : (fs.map Prod.fst).Nodup)
    (hfresh : ∀ f ∈ fs, f.1 ∉ d.map Prod.fst)
    (hcc : ∀ f ∈ fs, HasSuffix f.2 [':', ':'] = false)
    (hmsg : ∀ f ∈ fs.dropLast, ¬ (f.1 = msgKey ∧ HasPrefix f.2 auditOpen = true)) :
    storeFields E fs d = d ++ fs.map (fun f => (f.1, stored f.2)) := by
  induction fs generalizing d with
  | nil => simp [storeFields]
  | cons f fs ih =>
    obtain ⟨k, v⟩ := f
    have hk : k ≠ [] := hkey (k, v) (List.mem_cons_self _ _)
    have hget : Data.get d k = none :=
      Data.get_eq_none_of_not_mem d k (hfresh (k, v) (List.mem_cons_self _ _))
    cases fs with
    | nil => simp [storeFields, setData_of_absent k _ d hk hget]
    | cons g gs =>
      simp only [storeFields]
      rw [processSpace_plain E k v d (hmsg (k, v) (by simp))
        (hcc (k, v) (List.mem_cons_self _ _)), setData_of_absent k _ d hk hget]
      simp only [List.map_cons, List.nodup_cons] at hnodup
      rw [ih (d ++ [(k, stored v)])
        (fun f hf => hkey f (List.mem_cons_of_mem _ hf))
        (by simpa using hnodup.2)
        (fun f hf => by
          have h1 := hfresh f (List.mem_cons_of_mem _ hf)
          have h2 : f.1 ≠ k := by
            rintro rfl
            exact hnodup.1 (List.mem_map_of_mem Prod.fst hf)
          simp only [List.map_append, List.map_cons, List.map_nil, List.mem_append,
            List.mem_singleton, not_or]
          exact ⟨h1, h2⟩)
        (fun f hf => hcc f (List.mem_cons_of_mem _ hf))
        (fun f hf => hmsg f (by
          rw [List.dropLast_cons₂]
          exact List.mem_cons_of_mem _ hf))]
      simp

theorem get_map_of_nodup (g : Str → Value) (fs : List (Str × Str))
    (hnodup : (fs.map Prod.fst).Nodup) (f : Str × Str) (hf : f ∈ fs) :
    Data.get (fs.map (fun f => (f.1, g f.2))) f.1 = some (g f.2) := by
  induction fs with
  | nil => cases hf
  | cons a t ih =>
    simp only [List.map_cons, List.nodup_cons] at hnodup
    rcases List.mem_cons.1 hf with rfl | ht
    · simp [Data.get]
    · have hne : a.1 ≠ f.1 := by
        intro h
        exact hnodup.1 (h ▸ List.mem_map_of_mem Prod.fst ht)
      simp [Data.get, hne, ih hnodup.2 ht]

/-- C1: a line of well-formed `key=value` pairs separated by single spaces, with
non-empty pairwise distinct keys, no white space, `=` or quote in keys and
values, no value ending in `::` and no pair `msg=audit(...`, is parsed into the
flat record with exactly one string entry per pair, which maps every key to its
value with one trailing `:` removed; the error is nil. -/
theorem parse_wellformed_fields (E : Ext) (fs : List (Str × Str))
    (hkey : ∀ f ∈ fs, f.1 ≠ [])
    (hnodup : (fs.map Prod.fst).Nodup)
    (hplain : ∀ f ∈ fs, plain f.1 ∧ plain f.2)
    (hcc : ∀ f ∈ fs, HasSuffix f.2 [':', ':'] = false)
    (hmsg : ∀ f ∈ fs, ¬ (f.1 = msgKey ∧ HasPrefix f.2 auditOpen = true)) :
    ∃ d : Data, parse E (joinFields fs) = some (d, none)
      ∧ d = fs.map (fun f => (f.1, Value.str (TrimSuffix f.2 colon)))
      ∧ d.length = fs.length
      ∧ ∀ f ∈ fs, Data.get d f.1 = some (Value.str (TrimSuffix f.2 colon)) := by
  refine ⟨fs.map (fun f => (f.1, Value.str (TrimSuffix f.2 colon))), ?_, rfl, by simp, ?_⟩
  · rw [parse_joinFields E fs hplain,
      storeFields_distinct E fs [] hkey hnodup (by simp) hcc
        (fun f hf => hmsg f (List.dropLast_subset fs hf))]
    rfl
  · intro f hf
    exact get_map_of_nodup (fun v => Value.str (TrimSuffix v colon)) fs hnodup f hf

theorem parse_wellformed_fields_witness :
    ∃ d : Data,
      parse demoExt (joinFields [("type".toList, "PATH".toList), ("dev".toList, "fd:".toList),
        ("msg".toList, "x".toList)]) = some (d, none)
      ∧ d = [("type".toList, "PATH".toList), ("dev".toList, "fd:".toList),
          ("msg".toList, "x".toList)].map (fun f => (f.1, Value.str (TrimSuffix f.2 colon)))
      ∧ d.length = [("type".toList, "PATH".toList), ("dev".toList, "fd:".toList),
          ("msg".toList, "x".toList)].length
      ∧ ∀ f ∈ [("type".toList, "PATH".toList), ("dev".toList, "fd:".toList),
          ("msg".toList, "x".toList)],
          Data.get d f.1 = some (Value.str (TrimSuffix f.2 colon)) :=
  parse_wellformed_fields demoExt [("type".toList, "PATH".toList), ("dev".toList, "fd:".toList),
    ("msg".toList, "x".toList)]
    (by decide) (by decide) (by decide) (by decide) (by decide)

theorem setData_occupied (key : Str) (v : Value) (d : Data) (hk : key ≠ [])
    (h : Data.has d key = true) : setData key v d = Data.put d (firstFree key d) v := by
  simp only [setData, hk, if_false, h, Bool.not_true, DefaultCheckKey, setDataLoop, firstFree]
  by_cases h1 : Data.has d (altKey key 1) = true
  · by_cases h2 : Data.has d (altKey key 2) = true
    · by_cases h3 : Data.has d (altKey key 3) = true
      · by_cases h4 : Data.has d (altKey key 4) = true
        · simp [h1, h2, h3, h4]
        · simp [h1, h2, h3, h4]
      · simp [h1, h2, h3]
    · simp [h1, h2]
  · simp [h1]

theorem altKey_ne_self (key : Str) (i : Nat) : altKey key i ≠ key := by
  intro h
  have := congrArg List.length h
  simp [altKey] at this

theorem self_ne_altKey (key : Str) (i : Nat) : key ≠ altKey key i :=
  fun h => altKey_ne_self key i h.symm

theorem altKey_eq_iff (key : Str) (i j : Nat) : altKey key i = altKey key j ↔ Itoa i = Itoa j := by
  simp [altKey]

/-- C2 (the end of the line misses the timestamp extraction): a `msg=audit(...)`
field that ends the line is stored raw under `msg`, and neither `msg_timestamp`
nor `msg_id` is written. -/
theorem parse_msg_field_last (E : Ext) :
    parse E "type=SYSCALL msg=audit(1364481363.243:24287)".toList
      = some ([("type".toList, Value.str "SYSCALL".toList),
          ("msg".toList, Value.str "audit(1364481363.243:24287)".toList)], none) := by
  rfl

/-- C5 (the fifth alternate is never probed): with `k`, `k_1`, .., `k_4`
occupied and `k_5` free, `setData` overwrites `k` and writes nothing under `k_5`. -/
theorem setData_skips_fifth_alternate :
    setData "k".toList (Value.str "v".toList)
        [("k".toList, Value.str "0".toList), ("k_1".toList, Value.str "1".toList),
         ("k_2".toList, Value.str "2".toList), ("k_3".toList, Value.str "3".toList),
         ("k_4".toList, Value.str "4".toList)]
      = [("k".toList, Value.str "v".toList), ("k_1".toList, Value.str "1".toList),
         ("k_2".toList, Value.str "2".toList), ("k_3".toList, Value.str "3".toList),
         ("k_4".toList, Value.str "4".toList)] := by
  rfl

theorem storeFields_six (E : Ext) (k v1 v2 v3 v4 v5 v6 : Str) (hk : k ≠ [])
    (hcc : ∀ v ∈ [v1, v2, v3, v4, v5, v6], HasSuffix v colon = false)
    (hmsg : ∀ v ∈ [v1, v2, v3, v4, v5, v6], ¬ (k = msgKey ∧ HasPrefix v auditOpen = true)) :
    storeFields E [(k, v1), (k, v2), (k, v3), (k, v4), (k, v5), (k, v6)] []
      = [(k, Value.str v6), (altKey k 1, Value.str v2), (altKey k 2, Value.str v3),
         (altKey k 3, Value.str v4), (altKey k 4, Value.str v5)] := by
  have hst : ∀ v ∈ [v1, v2, v3, v4, v5, v6], stored v = Value.str v := by
    intro v hv
    simp [stored, TrimSuffix, hcc v hv]
  have hps : ∀ v ∈ [v1, v2, v3, v4, v5, v6], ∀ d,
      processSpace E k v d = setData k (Value.str v) d := by
    intro v hv d
    have h2 : HasSuffix v [':', ':'] = false := by
      rw [Bool.eq_false_iff]
      intro h
      have h1 := hcc v hv
      simp only [HasSuffix, colon] at h h1
      rw [List.isSuffixOf_iff_suffix] at h
      have : [':'] <:+ v := (List.suffix_cons ':' [':']).trans h
      rw [← List.isSuffixOf_iff_suffix] at this
      rw [this] at h1
      exact Bool.noConfusion h1
    rw [processSpace_plain E k v d (hmsg v hv) h2, hst v hv]
  have e12 : Itoa 1 ≠ Itoa 2 := by decide
  have e13 : Itoa 1 ≠ Itoa 3 := by decide
  have e14 : Itoa 1 ≠ Itoa 4 := by decide
  have e23 : Itoa 2 ≠ Itoa 3 := by decide
  have e24 : Itoa 2 ≠ Itoa 4 := by decide
  have e34 : Itoa 3 ≠ Itoa 4 := by decide
  have b1 := self_ne_altKey k 1
  have b2 := self_ne_altKey k 2
  have b3 := self_ne_altKey k 3
  have b4 := self_ne_altKey k 4
  have s1 : setData k (Value.str v1) [] = [(k, Value.str v1)] :=
    setData_of_absent k _ [] hk rfl
  have s2 : setData k (Value.str v2) [(k, Value.str v1)]
      = [(k, Value.str v1), (altKey k 1, Value.str v2)] := by
    rw [setData_occupied k _ _ hk (by simp [Data.has, Data.get])]
    simp [firstFree, Data.has, Data.get, Data.put, b1]
  have s3 : setData k (Value.str v3) [(k, Value.str v1), (altKey k 1, Value.str v2)]
      = [(k, Value.str v1), (altKey k 1, Value.str v2), (altKey k 2, Value.str v3)] := by
    rw [setData_occupied k _ _ hk (by simp [Data.has, Data.get])]
    simp [firstFree, Data.has, Data.get, Data.put, b1, b2, altKey_eq_iff, e12]
  have s4 : setData k (Value.str v4)
        [(k, Value.str v1), (altKey k 1, Value.str v2), (altKey k 2, Value.str v3)]
      = [(k, Value.str v1), (altKey k 1, Value.str v2), (altKey k 2, Value.str v3),
         (altKey k 3, Value.str v4)] := by
    rw [setData_occupied k _ _ hk (by simp [Data.has, Data.get])]
    simp [firstFree, Data.has, Data.get, Data.put, b1, b2, b3, altKey_eq_iff, e12, e13, e23]
  have s5 : setData k (Value.str v5)
        [(k, Value.str v1), (altKey k 1, Value.str v2), (altKey k 2, Value.str v3),
         (altKey k 3, Value.str v4)]
      = [(k, Value.str v1), (altKey k 1, Value.str v2), (altKey k 2, Value.str v3),
         (altKey k 3, Value.str v4), (altKey k 4, Value.str v5)] := by
    rw [setData_occupied k _ _ hk (by simp [Data.has, Data.get])]
    simp [firstFree, Data.has, Data.get, Data.put, b1, b2, b3, b4, altKey_eq_iff,
      e12, e13, e23, e14, e24, e34]
  have s6 : setData k (Value.str v6)
        [(k, Value.str v1), (altKey k 1, Value.str v2), (altKey k 2, Value.str v3),
         (altKey k 3, Value.str v4), (altKey k 4, Value.str v5)]
      = [(k, Value.str v6), (altKey k 1, Value.str v2), (altKey k 2, Value.str v3),
         (altKey k 3, Value.str v4), (altKey k 4, Value.str v5)] := by
    rw [setData_occupied k _ _ hk (by simp [Data.has, Data.get])]
    simp [firstFree, Data.has, Data.get, Data.put, b1, b2, b3, b4, altKey_eq_iff,
      e12, e13, e23, e14, e24, e34]
  simp only [storeFields]
  rw [hps v1 (by simp), s1, hps v2 (by simp), s2, hps v3 (by simp), s3, hps v4 (by simp), s4,
    hps v5 (by simp), s5, hst v6 (by simp), s6]

/-- C7: in a line of six single-space-separated fields with the same plain
non-empty key `k` (plain values without a trailing `:`, none of them triggering
the timestamp extraction) the sixth occurrence overwrites `k` itself: `k` maps
to the sixth value, and the first value, when it differs from the others, is
stored under no key. -/
theorem parse_sixth_occurrence_overwrites (E : Ext) (k v1 v2 v3 v4 v5 v6 : Str)
    (hk : k ≠ []) (hkp : plain k)
    (hvp : ∀ v ∈ [v1, v2, v3, v4, v5, v6], plain v)
    (hcc : ∀ v ∈ [v1, v2, v3, v4, v5, v6], HasSuffix v colon = false)
    (hmsg : ∀ v ∈ [v1, v2, v3, v4, v5, v6], ¬ (k = msgKey ∧ HasPrefix v auditOpen = true)) :
    ∃ d : Data,
      parse E (joinFields [(k, v1), (k, v2), (k, v3), (k, v4), (k, v5), (k, v6)]) = some (d, none)
      ∧ Data.get d k = some (Value.str v6)
      ∧ (v1 ∉ [v2, v3, v4, v5, v6] → ∀ j, Data.get d j ≠ some (Value.str v1)) := by
  refine ⟨[(k, Value.str v6), (altKey k 1, Value.str v2), (altKey k 2, Value.str v3),
    (altKey k 3, Value.str v4), (altKey k 4, Value.str v5)], ?_, ?_, ?_⟩
  · rw [parse_joinFields E _ (by
      intro f hf
      simp only [List.mem_cons, List.mem_singleton, List.not_mem_nil, or_false] at hf
      rcases hf with rfl | rfl | rfl | rfl | rfl | rfl <;> exact ⟨hkp, hvp _ (by simp)⟩)]
    rw [storeFields_six E k v1 v2 v3 v4 v5 v6 hk hcc hmsg]
  · simp [Data.get]
  · intro hne j
    simp only [List.mem_cons, List.mem_singleton, List.not_mem_nil, or_false, not_or] at hne
    obtain ⟨h2, h3, h4, h5, h6⟩ := hne
    simp only [Data.get]
    split_ifs <;> simp [Ne.symm h2, Ne.symm h3, Ne.symm h4, Ne.symm h5, Ne.symm h6]

theorem parse_sixth_occurrence_overwrites_witness :
    ∃ d : Data,
      parse demoExt (joinFields [("k".toList, "1".toList), ("k".toList, "2".toList),
        ("k".toList, "3".toList), ("k".toList, "4".toList), ("k".toList, "5".toList),
        ("k".toList, "6".toList)]) = some (d, none)
      ∧ Data.get d "k".toList = some (Value.str "6".toList)
      ∧ ("1".toList ∉ ["2".toList, "3".toList, "4".toList, "5".toList, "6".toList] →
          ∀ j, Data.get d j ≠ some (Value.str "1".toList)) :=
  parse_sixth_occurrence_overwrites demoExt "k".toList "1".toList "2".toList "3".toList
    "4".toList "5".toList "6".toList (by decide) (by decide) (by decide) (by decide) (by decide)

/-! ## Termination of the recursion -/

theorem processSubLine_isSome (sub : Str → Option (Data × Option Error))
    (tmp tmpLine key : Str) (data : Data)
    (hsub : ∀ s : Str, s.length ≤ tmpLine.length → (sub s).isSome = true) :
    (processSubLine sub tmp tmpLine key data).isSome = true := by
  unfold processSubLine
  split
  · rfl
  · split
    · rfl
    · split
      · rfl
      · rename_i suffix _
        have h := hsub (tmpLine.take (suffix + 1)) (by simp)
        split
        · rename_i h0
          rw [h0] at h
          exact Bool.noConfusion h
        · rfl
        · rfl

theorem parseLoop_isSome (E : Ext) (sub : Str → Option (Data × Option Error))
    (rest : Str) (data : Data) (tmp key : Str) (pfx : Bool)
    (hsub : ∀ s : Str, s.length < rest.length → (sub s).isSome = true) :
    (parseLoop E sub rest data tmp key pfx).isSome = true := by
  induction rest generalizing data tmp key pfx with
  | nil =>
    unfold parseLoop
    split <;> rfl
  | cons c rest ih =>
    have hrest : ∀ s : Str, s.length < rest.length → (sub s).isSome = true :=
      fun s hs => hsub s (by simp only [List.length_cons]; omega)
    unfold parseLoop
    by_cases hc : c = squote
    · have hp := processSubLine_isSome sub tmp rest key data
        (fun s hs => hsub s (by simp only [List.length_cons]; omega))
      obtain ⟨d1, hd1⟩ := Option.isSome_iff_exists.1 hp
      simp only [hc, if_true, hd1, Option.map_some']
      split_ifs <;> exact ih _ _ _ _ hrest
    · simp only [hc, if_false]
      split_ifs <;> exact ih _ _ _ _ hrest

theorem parseFuel_isSome (E : Ext) (fuel : Nat) (line : Str) (h : line.length < fuel) :
    (parseFuel E fuel line).isSome = true := by
  induction fuel generalizing line with
  | zero => omega
  | succ n ih =>
    have := parseLoop_isSome E (parseFuel E n) line [] [] [] false
      (fun s hs => ih s (by omega))
    simp [parseFuel, this]

/-! ## The result does not depend on the fuel -/

theorem processSubLine_mono (sub1 sub2 : Str → Option (Data × Option Error))
    (hsub : ∀ s r, sub1 s = some r → sub2 s = some r)
    (tmp tmpLine key : Str) (data d : Data)
    (h : processSubLine sub1 tmp tmpLine key data = some d) :
    processSubLine sub2 tmp tmpLine key data = some d := by
  unfold processSubLine at h ⊢
  by_cases hk : key = []
  · simpa [hk] using h
  · by_cases ht : tmp = []
    · simp only [hk, ht, if_false, ne_eq, not_true_eq_false] at h ⊢
      cases hi : Index tmpLine squote with
      | none => simpa [hi] using h
      | some suffix =>
        simp only [hi] at h ⊢
        cases hs : sub1 (tmpLine.take (suffix + 1)) with
        | none => simp [hs] at h
        | some r =>
          rw [hsub _ r hs]
          rw [hs] at h
          exact h
    · simpa [hk, ht] using h

theorem parseLoop_mono (E : Ext) (sub1 sub2 : Str → Option (Data × Option Error))
    (hsub : ∀ s r, sub1 s = some r → sub2 s = some r)
    (rest : Str) (data : Data) (tmp key : Str) (pfx : Bool) (d : Data)
    (h : parseLoop E sub1 rest data tmp key pfx = some d) :
    parseLoop E sub2 rest data tmp key pfx = some d := by
  induction rest generalizing data tmp key pfx with
  | nil =>
    unfold parseLoop at h ⊢
    exact h
  | cons c rest ih =>
    unfold parseLoop at h ⊢
    by_cases hc : c = squote
    · cases hp : processSubLine sub1 tmp rest key data with
      | none => simp [hc, hp] at h
      | some d1 =>
        simp only [hc, if_true, hp, Option.map_some'] at h
        simp only [hc, if_true, processSubLine_mono sub1 sub2 hsub _ _ _ _ _ hp,
          Option.map_some']
        split_ifs at h ⊢ <;> exact ih _ _ _ _ h
    · simp only [hc, if_false] at h ⊢
      split_ifs at h ⊢ <;> exact ih _ _ _ _ h

theorem parseFuel_succ (E : Ext) (fuel : Nat) (line : Str) (r : Data × Option Error)
    (h : parseFuel E fuel line = some r) : parseFuel E (fuel + 1) line = some r := by
  induction fuel generalizing line r with
  | zero => simp [parseFuel] at h
  | succ n ih =>
    simp only [parseFuel, Option.map_eq_some'] at h ⊢
    obtain ⟨d, hd, rfl⟩ := h
    refine ⟨d, parseLoop_mono E (parseFuel E n) (parseFuel E (n + 1)) ?_ line _ _ _ _ d hd, rfl⟩
    intro s r hs
    exact ih s r hs

theorem parseFuel_le (E : Ext) (m n : Nat) (hmn : m ≤ n) (line : Str) (r : Data × Option Error)
    (h : parseFuel E m line = some r) : parseFuel E n line = some r := by
  induction hmn with
  | refl => exact h
  | step _ ih => exact parseFuel_succ E _ line r ih

theorem parseFuel_total (E : Ext) (line : Str) :
    ∃ d : Data, ∀ fuel, line.length < fuel → parseFuel E fuel line = some (d, none) := by
  have h := parseFuel_isSome E (line.length + 1) line (Nat.lt_succ_self _)
  obtain ⟨r, hr⟩ := Option.isSome_iff_exists.1 h
  have hr2 : r.2 = none := by
    simp only [parseFuel, Option.map_eq_some'] at hr
    obtain ⟨d, _, rfl⟩ := hr
    rfl
  obtain ⟨d, e⟩ := r
  simp only at hr2
  subst hr2
  exact ⟨d, fun fuel hf => parseFuel_le E _ fuel hf line _ hr⟩

theorem parse_eq_parseD (E : Ext) (line : Str) : parse E line = some (parseD E line) := by
  obtain ⟨d, hd⟩ := parseFuel_total E line
  have := hd (line.length + 1) (Nat.lt_succ_self _)
  simp [parseD, parse, this]

theorem parseD_err (E : Ext) (line : Str) : (parseD E line).2 = none := by
  obtain ⟨d, hd⟩ := parseFuel_total E line
  have := hd (line.length + 1) (Nat.lt_succ_self _)
  simp [parseD, parse, this]

/-- C4: `Parser.parse` returns on every input string, with a record and a nil
error; any fuel above the length of the line gives that same result. -/
theorem parse_total (E : Ext) (line : Str) :
    ∃ d : Data, parse E line = some (d, none)
      ∧ ∀ fuel, line.length < fuel → parseFuel E fuel line = some (d, none) := by
  obtain ⟨d, hd⟩ := parseFuel_total E line
  exact ⟨d, hd (line.length + 1) (Nat.lt_succ_self _), hd⟩

/-! ## Lines with white-space separators -/

theorem processSpace_nil_key (E : Ext) (tmp : Str) (d : Data) : processSpace E [] tmp d = d := by
  simp [processSpace]

theorem parseLoop_spaces (E : Ext) (sub : Str → Option (Data × Option Error))
    (w rest : Str) (data : Data) (tmp : Str) (hw : ∀ c ∈ w, isSpace c = true) :
    parseLoop E sub (w ++ rest) data tmp [] false
      = parseLoop E sub rest data (if w = [] then tmp else []) [] false := by
  induction w generalizing tmp with
  | nil => simp
  | cons c w ih =>
    rw [List.cons_append, parseLoop_space E sub c _ data _ _ (hw c (List.mem_cons_self _ _)),
      processSpace_nil_key, ih _ (fun x hx => hw x (List.mem_cons_of_mem _ hx))]
    simp

theorem parseLoop_item (E : Ext) (sub : Str → Option (Data × Option Error))
    (k v sep rest : Str) (data : Data) (hk : plain k) (hv : plain v)
    (hsep : ∀ c ∈ sep, isSpace c = true) (hne : sep ≠ []) :
    parseLoop E sub (fieldText (k, v) ++ sep ++ rest) data [] [] false
      = parseLoop E sub rest (processSpace E k v data) [] [] false := by
  cases sep with
  | nil => exact absurd rfl hne
  | cons c sep =>
    rw [List.append_assoc, List.cons_append,
      parseLoop_field E sub k v c _ data hk hv (hsep c (List.mem_cons_self _ _)),
      parseLoop_spaces E sub sep rest _ [] (fun x hx => hsep x (List.mem_cons_of_mem _ hx))]
    simp

theorem wellSeparated_cons (a b : Str × Str × Str) (l : List (Str × Str × Str))
    (h : wellSeparated (a :: b :: l)) : a.2.2 ≠ [] ∧ wellSeparated (b :: l) := by
  obtain ⟨h1, h2⟩ := h
  refine ⟨h2 a (by simp), fun it hit => h1 it (List.mem_cons_of_mem _ hit), fun it hit => ?_⟩
  exact h2 it (by
    rw [List.dropLast_cons₂]
    exact List.mem_cons_of_mem _ hit)

theorem parseLoop_joinSep (E : Ext) (sub : Str → Option (Data × Option Error))
    (items : List (Str × Str × Str)) (data : Data) (hwf : wellSeparated items) :
    parseLoop E sub (joinSep items) data [] [] false = some (storeItems E items data) := by
  induction items generalizing data with
  | nil => simp [joinSep, storeItems, parseLoop_nil, setData_nil_key]
  | cons it items ih =>
    obtain ⟨k, v, sep⟩ := it
    have hit := hwf.1 (k, v, sep) (List.mem_cons_self _ _)
    cases items with
    | nil =>
      by_cases hs : sep = []
      · subst hs
        simpa [joinSep, storeItems, itemEffect] using
          parseLoop_field_last E sub k v data hit.1 hit.2.1
      · have := parseLoop_item E sub k v sep [] data hit.1 hit.2.1 hit.2.2 hs
        simp only [joinSep, storeItems, itemEffect, List.foldl_cons, List.foldl_nil, hs, if_false]
        rw [this, parseLoop_nil, setData_nil_key]
    | cons b l =>
      obtain ⟨hs, hwf2⟩ := wellSeparated_cons _ _ _ hwf
      simp only at hs
      have := ih (processSpace E k v data) hwf2
      simp only [joinSep] at this ⊢
      rw [parseLoop_item E sub k v sep _ data hit.1 hit.2.1 hit.2.2 hs, this]
      simp [storeItems, itemEffect, hs]

theorem parse_joinSep (E : Ext) (items : List (Str × Str × Str)) (hwf : wellSeparated items) :
    parse E (joinSep items) = some (storeItems E items [], none) := by
  simp [parse, parseFuel, parseLoop_joinSep E _ items [] hwf]

/-! ## Which entries a field can change -/

theorem getTimestampID_false (E : Ext) (t : Str) (d : Data)
    (h : (getTimestampID E t d).1 = false) : (getTimestampID E t d).2 = d := by
  unfold getTimestampID at h ⊢
  simp only at h ⊢
  split
  · rename_i heq
    rw [heq] at h
    simp at h
  · rfl

theorem getTimestampID_get (E : Ext) (t : Str) (d : Data) (j : Str)
    (h1 : j ≠ msgTimestampKey) (h2 : j ≠ msgIdKey) :
    Data.get (getTimestampID E t d).2 j = Data.get d j := by
  unfold getTimestampID
  simp only
  split
  · simp only
    rw [Data.get_put_ne _ _ h2]
    split <;> exact Data.get_put_ne _ _ h1
  · rfl

theorem firstFree_cases (key : Str) (d : Data) :
    firstFree key d = key ∨ ∃ i ∈ [1, 2, 3, 4], firstFree key d = altKey key i := by
  unfold firstFree
  split_ifs
  · exact Or.inr ⟨1, by simp, rfl⟩
  · exact Or.inr ⟨2, by simp, rfl⟩
  · exact Or.inr ⟨3, by simp, rfl⟩
  · exact Or.inr ⟨4, by simp, rfl⟩
  · exact Or.inl rfl

theorem setData_get_frame (key : Str) (v : Value) (d : Data) (j : Str) (hj : j ≠ key)
    (h : Data.has d j = true ∨ ∀ i ∈ [1, 2, 3, 4], altKey key i ≠ j) :
    Data.get (setData key v d) j = Data.get d j := by
  rcases h with h | h
  · exact setData_get_other key v d j hj h
  · by_cases hk : key = []
    · simp [setData, hk]
    · by_cases hp : Data.has d key = true
      · rw [setData_occupied key v d hk hp]
        apply Data.get_put_ne
        rcases firstFree_cases key d with h1 | ⟨i, hi, h1⟩
        · rw [h1]
          exact hj
        · rw [h1]
          exact fun e => h i hi e.symm
      · have hp2 : Data.has d key = false := by simpa using hp
        simp only [setData, hk, if_false, hp2, Bool.not_false, if_true]
        exact Data.get_put_ne _ _ hj

theorem processSpace_get_frame (E : Ext) (k v : Str) (d : Data) (j : Str) (hj : j ≠ k)
    (h : Data.has d j = true ∨ ∀ i ∈ [1, 2, 3, 4], altKey k i ≠ j)
    (hts : leavesKey k v j) :
    Data.get (processSpace E k v d) j = Data.get d j := by
  unfold processSpace
  by_cases hk : k = []
  · simp [hk]
  · simp only [hk, if_false, strip_guard]
    by_cases hc : k = msgKey ∧ HasPrefix (TrimSuffix v colon) auditOpen = true
    · have hc2 : k = msgKey ∧ HasPrefix v auditOpen = true :=
        ⟨hc.1, HasPrefix_of_TrimSuffix _ _ _ hc.2⟩
      have hj2 : j ≠ msgTimestampKey ∧ j ≠ msgIdKey := by
        rcases hts with h1 | h1
        · exact absurd hc2 h1
        · exact h1
      rw [if_pos hc]
      by_cases hr : (getTimestampID E (TrimSuffix v colon) d).1 = true
      · rw [if_pos hr]
        exact getTimestampID_get E _ d j hj2.1 hj2.2
      · rw [if_neg hr]
        simp only [Bool.not_eq_true] at hr
        rw [getTimestampID_false E _ d hr]
        exact setData_get_frame k _ d j hj h
    · rw [if_neg hc]
      exact setData_get_frame k _ d j hj h

theorem itemEffect_get_frame (E : Ext) (it : Str × Str × Str) (d : Data) (j : Str)
    (hj : j ≠ it.1)
    (h : Data.has d j = true ∨ ∀ i ∈ [1, 2, 3, 4], altKey it.1 i ≠ j)
    (hts : leavesKey it.1 it.2.1 j) :
    Data.get (itemEffect E it d) j = Data.get d j := by
  unfold itemEffect
  split
  · exact setData_get_frame _ _ d j hj h
  · exact processSpace_get_frame E _ _ d j hj h hts

theorem storeItems_get_frame (E : Ext) (items : List (Str × Str × Str)) (d : Data) (j : Str)
    (hj : ∀ it ∈ items, j ≠ it.1)
    (h : Data.has d j = true ∨ ∀ it ∈ items, ∀ i ∈ [1, 2, 3, 4], altKey it.1 i ≠ j)
    (hts : ∀ it ∈ items, leavesKey it.1 it.2.1 j) :
    Data.get (storeItems E items d) j = Data.get d j := by
  induction items generalizing d with
  | nil => rfl
  | cons it items ih =>
    have h1 : Data.get (itemEffect E it d) j = Data.get d j :=
      itemEffect_get_frame E it d j (hj it (List.mem_cons_self _ _))
        (h.imp id (fun h => h it (List.mem_cons_self _ _))) (hts it (List.mem_cons_self _ _))
    simp only [storeItems, List.foldl_cons]
    have := ih (itemEffect E it d) (fun x hx => hj x (List.mem_cons_of_mem _ hx))
      (h.imp (fun hp => by simpa [Data.has, h1] using hp)
        (fun h x hx => h x (List.mem_cons_of_mem _ hx)))
      (fun x hx => hts x (List.mem_cons_of_mem _ hx))
    simp only [storeItems] at this
    rw [this, h1]

theorem Itoa_length (i : Nat) (hi : i ∈ [1, 2, 3, 4]) : (Itoa i).length = 1 := by
  simp only [List.mem_cons, List.mem_singleton, List.not_mem_nil, or_false] at hi
  rcases hi with rfl | rfl | rfl | rfl <;> rfl

theorem altKey_key_inj (a b : Str) (i j : Nat) (hi : i ∈ [1, 2, 3, 4]) (hj : j ∈ [1, 2, 3, 4])
    (h : altKey a i = altKey b j) : a = b := by
  unfold altKey at h
  have h1 := (List.append_inj' h (by rw [Itoa_length i hi, Itoa_length j hj])).1
  exact (List.append_inj' h1 rfl).1

theorem altKey_one_getLast (k : Str) : (altKey k 1).getLast? = some '1' := by
  have : altKey k 1 = (k ++ ['_']) ++ ['1'] := rfl
  rw [this, List.getLast?_append]
  rfl

theorem altKey_one_ne_ts (k : Str) : altKey k 1 ≠ msgTimestampKey := by
  intro h
  have := altKey_one_getLast k
  rw [h] at this
  exact absurd this (by decide)

theorem altKey_one_ne_id (k : Str) : altKey k 1 ≠ msgIdKey := by
  intro h
  have := altKey_one_getLast k
  rw [h] at this
  exact absurd this (by decide)

theorem double_colon_of_single (v : Str) (h : HasSuffix v colon = false) :
    HasSuffix v [':', ':'] = false := by
  rw [Bool.eq_false_iff]
  intro h2
  simp only [HasSuffix, colon] at h h2
  rw [List.isSuffixOf_iff_suffix] at h2
  have : [':'] <:+ v := (List.suffix_cons ':' [':']).trans h2
  rw [← List.isSuffixOf_iff_suffix] at this
  rw [this] at h
  exact Bool.noConfusion h

/-- The first occurrence of a key that is not yet stored and does not trigger
the timestamp extraction is stored under the key itself. -/
theorem itemEffect_first (E : Ext) (k a s : Str) (d : Data) (hk : k ≠ [])
    (habs : Data.get d k = none)
    (hmsg : ¬ (k = msgKey ∧ HasPrefix a auditOpen = true))
    (hcc : HasSuffix a [':', ':'] = false) :
    itemEffect E (k, a, s) d = d ++ [(k, stored a)] := by
  unfold itemEffect
  simp only
  split
  · exact setData_of_absent k _ d hk habs
  · rw [processSpace_plain E k a d hmsg hcc]
    exact setData_of_absent k _ d hk habs

/-- A second occurrence, with `key_1` still free, is stored under `key_1`. -/
theorem itemEffect_second (E : Ext) (k b s : Str) (d : Data) (hk : k ≠ [])
    (hocc : Data.has d k = true) (hfree : Data.get d (altKey k 1) = none)
    (hmsg : ¬ (k = msgKey ∧ HasPrefix b auditOpen = true))
    (hcc : HasSuffix b [':', ':'] = false) :
    itemEffect E (k, b, s) d = Data.put d (altKey k 1) (stored b) := by
  have hset : setData k (stored b) d = Data.put d (altKey k 1) (stored b) := by
    rw [setData_occupied k _ d hk hocc]
    simp [firstFree, Data.has, hfree]
  unfold itemEffect
  simp only
  split
  · exact hset
  · rw [processSpace_plain E k b d hmsg hcc]
    exact hset

theorem mem_dropLast_middle {α : Type} (l1 l2 : List α) (x : α) (h : l2 ≠ []) :
    x ∈ (l1 ++ x :: l2).dropLast := by
  have h1 : x :: l2 ≠ [] := by simp
  rw [List.dropLast_append_of_ne_nil _ h1, List.dropLast_cons_of_ne_nil h]
  simp

/-- C6, as amended: in a line of white-space-separated plain fields in which the
non-empty key `k` occurs exactly twice, where no field has the key `k_1`, `k`
is not a numbered alternate `j_1 .. j_4` of the key `j` of an earlier field,
the two values do not trigger the timestamp extraction and do not end in `::`,
and no other field triggers the extraction when `k` is one of the two derived
keys, the record keeps the first value (one trailing `:` removed) under `k`
and stores the second under `k_1`. -/
theorem parse_second_occurrence (E : Ext) (pre mid post : List (Str × Str × Str))
    (k a b s1 s2 : Str)
    (hwf : wellSeparated (pre ++ (k, a, s1) :: (mid ++ (k, b, s2) :: post)))
    (hk : k ≠ [])
    (hocc : ∀ it ∈ pre ++ mid ++ post, it.1 ≠ k)
    (halt : ∀ it ∈ pre ++ mid ++ post, it.1 ≠ altKey k 1)
    (hnum : ∀ it ∈ pre, ∀ i ∈ [1, 2, 3, 4], altKey it.1 i ≠ k)
    (hts : ∀ it ∈ pre ++ mid ++ post, leavesKey it.1 it.2.1 k)
    (hab : ¬ (k = msgKey ∧ (HasPrefix a auditOpen = true ∨ HasPrefix b auditOpen = true)))
    (hcc : HasSuffix a [':', ':'] = false ∧ HasSuffix b [':', ':'] = false) :
    ∃ d : Data,
      parse E (joinSep (pre ++ (k, a, s1) :: (mid ++ (k, b, s2) :: post))) = some (d, none)
      ∧ Data.get d k = some (stored a)
      ∧ Data.get d (altKey k 1) = some (stored b) := by
  refine ⟨_, parse_joinSep E _ hwf, ?_⟩
  have hocc1 : ∀ l : List (Str × Str × Str), (∀ it ∈ l, it ∈ pre ++ mid ++ post) →
      ∀ it ∈ l, k ≠ it.1 := fun l hl it hit => Ne.symm (hocc it (hl it hit))
  have halt1 : ∀ l : List (Str × Str × Str), (∀ it ∈ l, it ∈ pre ++ mid ++ post) →
      ∀ it ∈ l, altKey k 1 ≠ it.1 := fun l hl it hit => Ne.symm (halt it (hl it hit))
  have hnum1 : ∀ l : List (Str × Str × Str), (∀ it ∈ l, it ∈ pre ++ mid ++ post) →
      ∀ it ∈ l, ∀ i ∈ [1, 2, 3, 4], altKey it.1 i ≠ altKey k 1 :=
    fun l hl it hit i hi e =>
      hocc it (hl it hit) (altKey_key_inj it.1 k i 1 hi (by simp) e)
  have hts1 : ∀ l : List (Str × Str × Str), ∀ it ∈ l, leavesKey it.1 it.2.1 (altKey k 1) :=
    fun l it _ => Or.inr ⟨altKey_one_ne_ts k, altKey_one_ne_id k⟩
  have hpre : ∀ it ∈ pre, it ∈ pre ++ mid ++ post := fun it h => by simp [h]
  have hmid : ∀ it ∈ mid, it ∈ pre ++ mid ++ post := fun it h => by simp [h]
  have hpost : ∀ it ∈ post, it ∈ pre ++ mid ++ post := fun it h => by simp [h]
  have hk1 : k ≠ altKey k 1 := self_ne_altKey k 1
  -- the fields before the first occurrence
  have p1 : Data.get (storeItems E pre []) k = none :=
    storeItems_get_frame E pre [] k (hocc1 pre hpre) (Or.inr hnum)
      (fun it hit => hts it (hpre it hit))
  have p2 : Data.get (storeItems E pre []) (altKey k 1) = none :=
    storeItems_get_frame E pre [] (altKey k 1) (halt1 pre hpre) (Or.inr (hnum1 pre hpre))
      (hts1 pre)
  -- the first occurrence
  have hs1 : s1 ≠ [] :=
    hwf.2 (k, a, s1) (mem_dropLast_middle pre _ _ (by simp))
  have e1 := itemEffect_first E k a s1 (storeItems E pre []) hk p1
    (fun h => hab ⟨h.1, Or.inl h.2⟩) hcc.1
  have q1 : Data.get (itemEffect E (k, a, s1) (storeItems E pre [])) k = some (stored a) := by
    rw [e1, Data.get_append_single, p1]
    simp
  have q2 : Data.get (itemEffect E (k, a, s1) (storeItems E pre [])) (altKey k 1) = none := by
    rw [e1, Data.get_append_single, p2]
    simp [hk1]
  -- the fields between the two occurrences
  have r1 : Data.get (storeItems E mid (itemEffect E (k, a, s1) (storeItems E pre []))) k
      = some (stored a) := by
    rw [storeItems_get_frame E mid _ k (hocc1 mid hmid) (Or.inl (by simp [Data.has, q1]))
      (fun it hit => hts it (hmid it hit)), q1]
  have r2 : Data.get (storeItems E mid (itemEffect E (k, a, s1) (storeItems E pre [])))
      (altKey k 1) = none := by
    rw [storeItems_get_frame E mid _ (altKey k 1) (halt1 mid hmid) (Or.inr (hnum1 mid hmid))
      (hts1 mid), q2]
  -- the second occurrence
  have e2 := itemEffect_second E k b s2 _ hk (by simp [Data.has, r1]) r2
    (fun h => hab ⟨h.1, Or.inr h.2⟩) hcc.2
  have t1 : Data.get (itemEffect E (k, b, s2)
      (storeItems E mid (itemEffect E (k, a, s1) (storeItems E pre [])))) k = some (stored a) := by
    rw [e2, Data.get_put_ne _ _ hk1, r1]
  have t2 : Data.get (itemEffect E (k, b, s2)
      (storeItems E mid (itemEffect E (k, a, s1) (storeItems E pre [])))) (altKey k 1)
      = some (stored b) := by
    rw [e2, Data.get_put_self]
  -- the fields after the second occurrence
  have hsplit : storeItems E (pre ++ (k, a, s1) :: (mid ++ (k, b, s2) :: post)) []
      = storeItems E post (itemEffect E (k, b, s2)
          (storeItems E mid (itemEffect E (k, a, s1) (storeItems E pre [])))) := by
    simp [storeItems, List.foldl_append]
  rw [hsplit]
  constructor
  · rw [storeItems_get_frame E post _ k (hocc1 post hpost) (Or.inl (by simp [Data.has, t1]))
      (fun it hit => hts it (hpost it hit)), t1]
  · rw [storeItems_get_frame E post _ (altKey k 1) (halt1 post hpost)
      (Or.inl (by simp [Data.has, t2])) (hts1 post), t2]

theorem parse_second_occurrence_witness :
    ∃ d : Data,
      parse demoExt (joinSep ([("type".toList, "PATH".toList, " ".toList)] ++
        ("dev".toList, "fd:00".toList, "  ".toList) ::
          ([("inode".toList, "4".toList, " ".toList)] ++
            ("dev".toList, "etc_t:s0:".toList, []) :: []))) = some (d, none)
      ∧ Data.get d "dev".toList = some (stored "fd:00".toList)
      ∧ Data.get d (altKey "dev".toList 1) = some (stored "etc_t:s0:".toList) :=
  parse_second_occurrence demoExt [("type".toList, "PATH".toList, " ".toList)]
    [("inode".toList, "4".toList, " ".toList)] [] "dev".toList "fd:00".toList
    "etc_t:s0:".toList "  ".toList [] (by decide) (by decide) (by decide) (by decide)
    (by decide) (by decide) (by decide) (by decide)

/-- C6 fails as stated: with a field `k_1` before the second `k` the second value
goes to `k_2`; with `a` three times before `a_2`, the key `a_2` holds the third
value of `a` and its own two values go to `a_2_1` and `a_2_2`; two fields
`msg=audit(..)` leave no key `msg` at all; and a timestamp between two fields
`msg_id` overwrites the first one. -/
theorem parse_second_occurrence_counterexample :
    parse demoExt "k=a k_1=b k=c".toList
        = some ([("k".toList, Value.str "a".toList), ("k_1".toList, Value.str "b".toList),
            ("k_2".toList, Value.str "c".toList)], none)
    ∧ parse demoExt "a=1 a=2 a=3 a_2=p a_2=q".toList
        = some ([("a".toList, Value.str "1".toList), ("a_1".toList, Value.str "2".toList),
            ("a_2".toList, Value.str "3".toList), ("a_2_1".toList, Value.str "p".toList),
            ("a_2_2".toList, Value.str "q".toList)], none)
    ∧ parse demoExt "msg=audit(1:2) msg=audit(3:4) x=y".toList
        = some ([("msg_timestamp".toList, Value.str "T3".toList),
            ("msg_id".toList, Value.str "4".toList), ("x".toList, Value.str "y".toList)], none)
    ∧ parse demoExt "msg_id=1 msg=audit(3:4) msg_id=2".toList
        = some ([("msg_id".toList, Value.str "4".toList),
            ("msg_timestamp".toList, Value.str "T3".toList),
            ("msg_id_1".toList, Value.str "2".toList)], none) := by
  refine ⟨?_, ?_, ?_, ?_⟩ <;> rfl

/-! ## Quoted sub-messages -/

theorem squote_not_plain (w : Str) (hw : plain w) : squote ∉ w := by
  intro h
  exact absurd (hw squote h) (by decide)

theorem squote_not_mem_joinFields (fs : List (Str × Str))
    (hplain : ∀ f ∈ fs, plain f.1 ∧ plain f.2) : squote ∉ joinFields fs := by
  induction fs with
  | nil => simp [joinFields]
  | cons f fs ih =>
    have hf := hplain f (List.mem_cons_self _ _)
    have h1 := squote_not_plain _ hf.1
    have h2 := squote_not_plain _ hf.2
    have h3 : squote ≠ '=' := by decide
    have h4 : squote ≠ ' ' := by decide
    cases fs with
    | nil => simp [joinFields, fieldText, h1, h2, h3]
    | cons g gs =>
      have := ih (fun x hx => hplain x (List.mem_cons_of_mem _ hx))
      simp [joinFields, fieldText, h1, h2, h3, h4, this]

theorem Index_append_of_not_mem (w rest : Str) (c : Char) (hw : c ∉ w) :
    Index (w ++ c :: rest) c = some w.length := by
  induction w with
  | nil => simp [Index]
  | cons x w ih =>
    simp only [List.mem_cons, not_or] at hw
    simp [Index, Ne.symm hw.1, ih hw.2]

theorem parseLoop_skip (E : Ext) (sub : Str → Option (Data × Option Error))
    (w rest : Str) (data : Data) (tmp key : Str) (hw : squote ∉ w) :
    parseLoop E sub (w ++ rest) data tmp key true = parseLoop E sub rest data tmp key true := by
  induction w with
  | nil => rfl
  | cons c w ih =>
    simp only [List.mem_cons, not_or] at hw
    rw [List.cons_append]
    conv_lhs => unfold parseLoop
    simp only [Ne.symm hw.1, if_false, Bool.true_or, if_true]
    exact ih hw.2

/-- The closing quote of a span: the flag falls, nothing is stored (no key is
pending) and the quote itself starts the next token. -/
theorem parseLoop_close (E : Ext) (sub : Str → Option (Data × Option Error))
    (rest : Str) (data : Data) (tmp : Str) :
    parseLoop E sub (squote :: rest) data tmp [] true
      = parseLoop E sub rest data [squote] [] false := by
  conv_lhs => unfold parseLoop
  have h1 : squote ≠ dquote := by decide
  have h2 : squote ≠ '=' := by decide
  simp [processSubLine, h1, h2, isSpace_squote]

/-- The last field of a sub-message, closed by the quote. -/
theorem parseLoop_field_quote (E : Ext) (sub : Str → Option (Data × Option Error))
    (k v : Str) (data : Data) (hk : plain k) (hv : plain v) (hne : v ≠ []) :
    parseLoop E sub (fieldText (k, v) ++ [squote]) data [] [] false
      = some (setData k (stored v) data) := by
  simp only [fieldText, List.append_assoc, List.cons_append]
  rw [parseLoop_plain E sub k _ data [] [] hk, parseLoop_assign,
    parseLoop_plain E sub v _ data [] _ hv]
  simp only [List.nil_append]
  conv_lhs => unfold parseLoop
  by_cases hk0 : k = []
  · simp [processSubLine, hk0, parseLoop, setData_nil_key]
  · simp [processSubLine, hk0, hne, parseLoop, stored]

theorem parseLoop_joinFields_quote (E : Ext) (sub : Str → Option (Data × Option Error))
    (fs : List (Str × Str)) (data : Data) (hne : fs ≠ [])
    (hplain : ∀ f ∈ fs, plain f.1 ∧ plain f.2)
    (hval : ∀ f ∈ fs, f.2 ≠ []) :
    parseLoop E sub (joinFields fs ++ [squote]) data [] [] false
      = some (storeFields E fs data) := by
  induction fs generalizing data with
  | nil => exact absurd rfl hne
  | cons f fs ih =>
    obtain ⟨k, v⟩ := f
    have hf := hplain (k, v) (List.mem_cons_self _ _)
    cases fs with
    | nil =>
      simpa [joinFields, storeFields] using
        parseLoop_field_quote E sub k v data hf.1 hf.2 (hval (k, v) (List.mem_cons_self _ _))
    | cons g gs =>
      have hsp : isSpace ' ' = true := by decide
      simp only [joinFields, storeFields, List.append_assoc, List.cons_append]
      rw [parseLoop_field E sub k v ' ' _ data hf.1 hf.2 hsp]
      exact ih _ (by simp) (fun f hf => hplain f (List.mem_cons_of_mem _ hf))
        (fun f hf => hval f (List.mem_cons_of_mem _ hf))

/-- The opening quote after `key=`: the sub-message up to the next quote is
parsed by the recursive call and stored under the key, and the scan goes on
inside the span. -/
theorem parseLoop_open (E : Ext) (fuel : Nat) (key : Str) (fs : List (Str × Str))
    (rest : Str) (data : Data) (hkey : key ≠ []) (hne : fs ≠ [])
    (hplain : ∀ f ∈ fs, plain f.1 ∧ plain f.2) (hval : ∀ f ∈ fs, f.2 ≠ []) :
    parseLoop E (parseFuel E (fuel + 1)) (squote :: (joinFields fs ++ squote :: rest))
        data [] key false
      = parseLoop E (parseFuel E (fuel + 1)) (joinFields fs ++ squote :: rest)
          (setData key (Value.data (storeFields E fs [])) data) [] [] true := by
  have hidx := Index_append_of_not_mem (joinFields fs) rest squote
    (squote_not_mem_joinFields fs hplain)
  have htake : (joinFields fs ++ squote :: rest).take ((joinFields fs).length + 1)
      = joinFields fs ++ [squote] := by
    rw [List.take_append_eq_append_take]
    simp
  have hinner : parseFuel E (fuel + 1) (joinFields fs ++ [squote])
      = some (storeFields E fs [], none) := by
    simp [parseFuel, parseLoop_joinFields_quote E _ fs [] hne hplain hval]
  conv_lhs => unfold parseLoop
  simp [processSubLine, hkey, hidx, htake, hinner]

theorem stored_of_no_colon (v : Str) (h : HasSuffix v colon = false) : stored v = Value.str v := by
  simp [stored, TrimSuffix, h]

theorem itemEffect_of_sep (E : Ext) (it : Str × Str × Str) (d : Data) (h : it.2.2 ≠ []) :
    itemEffect E it d = processSpace E it.1 it.2.1 d := by
  simp [itemEffect, h]

/-- The scan over fields that are all followed by white space, with more text
after them. -/
theorem parseLoop_joinSep_then (E : Ext) (sub : Str → Option (Data × Option Error))
    (items : List (Str × Str × Str)) (rest : Str) (data : Data)
    (hwf : ∀ it ∈ items, plain it.1 ∧ plain it.2.1 ∧ ∀ c ∈ it.2.2, isSpace c = true)
    (hsep : ∀ it ∈ items, it.2.2 ≠ []) :
    parseLoop E sub (joinSep items ++ rest) data [] [] false
      = parseLoop E sub rest (storeItems E items data) [] [] false := by
  induction items generalizing data with
  | nil => rfl
  | cons it items ih =>
    obtain ⟨k, v, sep⟩ := it
    have hit := hwf (k, v, sep) (List.mem_cons_self _ _)
    have hs : sep ≠ [] := hsep (k, v, sep) (List.mem_cons_self _ _)
    simp only [joinSep, List.append_assoc]
    have := parseLoop_item E sub k v sep (joinSep items ++ rest) data hit.1 hit.2.1 hit.2.2 hs
    simp only [List.append_assoc] at this
    rw [this, ih _ (fun x hx => hwf x (List.mem_cons_of_mem _ hx))
      (fun x hx => hsep x (List.mem_cons_of_mem _ hx))]
    simp [storeItems, itemEffect, hs]

/-- C3, as amended: for a plain non-empty key `k` and a sub-message of
single-space-separated pairs (pairwise distinct non-empty keys, non-empty
values, keys and values plain, no value ending in `:`) in which no pair but the
last is `msg=audit(...`, take the line made of the key, `=` and the quoted
sub-message, after plain fields that neither use the key `k` nor a key of which
`k` is a numbered alternate, and alone or followed by white space and further
plain fields that do not use the key `k` again (no field triggering the
timestamp extraction when `k` is one of the two derived keys). `Parser.parse`
stores under `k` the nested record with exactly the fields of the sub-message. -/
theorem parse_quoted_submessage (E : Ext) (k : Str) (sub : List (Str × Str)) (sep : Str)
    (before items : List (Str × Str × Str))
    (hk : k ≠ []) (hkp : plain k) (hsub : sub ≠ [])
    (hkeys : ∀ f ∈ sub, f.1 ≠ [])
    (hnodup : (sub.map Prod.fst).Nodup)
    (hplain : ∀ f ∈ sub, plain f.1 ∧ plain f.2)
    (hval : ∀ f ∈ sub, f.2 ≠ [] ∧ HasSuffix f.2 colon = false)
    (hmsg : ∀ f ∈ sub.dropLast, ¬ (f.1 = msgKey ∧ HasPrefix f.2 auditOpen = true))
    (hbefore : wellSeparated before ∧ ∀ it ∈ before, it.2.2 ≠ [])
    (hearlier : ∀ it ∈ before, it.1 ≠ k ∧ (∀ i ∈ [1, 2, 3, 4], altKey it.1 i ≠ k)
      ∧ leavesKey it.1 it.2.1 k)
    (hsep : ∀ c ∈ sep, isSpace c = true)
    (hitems : wellSeparated items)
    (hsep2 : items ≠ [] → sep ≠ [])
    (hother : ∀ it ∈ items, it.1 ≠ k ∧ leavesKey it.1 it.2.1 k) :
    ∃ d : Data,
      parse E (joinSep before ++ (k ++ '=' :: squote ::
          (joinFields sub ++ squote :: (sep ++ joinSep items))))
        = some (d, none)
      ∧ Data.get d k = some (Value.data (sub.map (fun f => (f.1, Value.str f.2)))) := by
  have hnested : storeFields E sub [] = sub.map (fun f => (f.1, Value.str f.2)) := by
    rw [storeFields_distinct E sub [] hkeys hnodup (by simp)
      (fun f hf => double_colon_of_single _ (hval f hf).2) hmsg]
    simp only [List.nil_append]
    apply List.map_congr_left
    intro f hf
    rw [stored_of_no_colon _ (hval f hf).2]
  have habs : Data.get (storeItems E before []) k = none :=
    storeItems_get_frame E before [] k (fun it hit => Ne.symm (hearlier it hit).1)
      (Or.inr (fun it hit => (hearlier it hit).2.1)) (fun it hit => (hearlier it hit).2.2)
  have hd0 : setData k (Value.data (storeFields E sub [])) (storeItems E before [])
      = storeItems E before []
          ++ [(k, Value.data (sub.map (fun f => (f.1, Value.str f.2))))] := by
    rw [setData_of_absent k _ _ hk habs, hnested]
  have hgk : Data.get (storeItems E before []
      ++ [(k, Value.data (sub.map (fun f => (f.1, Value.str f.2))))]) k
      = some (Value.data (sub.map (fun f => (f.1, Value.str f.2)))) := by
    rw [Data.get_append_single, habs]
    simp
  obtain ⟨m, hm⟩ : ∃ m, (joinSep before ++ (k ++ '=' :: squote ::
      (joinFields sub ++ squote :: (sep ++ joinSep items)))).length = m + 1 :=
    ⟨(joinSep before).length + (k.length + 1 +
        (joinFields sub ++ squote :: (sep ++ joinSep items)).length), by
      simp only [List.length_append, List.length_cons]
      omega⟩
  have hscan : parseLoop E (parseFuel E (m + 1))
      (joinSep before ++ (k ++ '=' :: squote ::
        (joinFields sub ++ squote :: (sep ++ joinSep items)))) [] [] [] false
      = some (storeItems E items (storeItems E before []
          ++ [(k, Value.data (sub.map (fun f => (f.1, Value.str f.2))))])) := by
    rw [parseLoop_joinSep_then E _ before _ [] hbefore.1.1 hbefore.2,
      parseLoop_plain E _ k _ _ [] [] hkp, parseLoop_assign]
    simp only [List.nil_append]
    rw [parseLoop_open E m k sub _ _ hk hsub hplain (fun f hf => (hval f hf).1), hd0,
      parseLoop_skip E _ (joinFields sub) _ _ _ _ (squote_not_mem_joinFields sub hplain),
      parseLoop_close, parseLoop_spaces E _ sep _ _ _ hsep]
    by_cases hs : sep = []
    · have hi : items = [] := by
        by_contra hne
        exact hsep2 hne hs
      subst hi
      simp [hs, joinSep, storeItems, parseLoop_nil, setData_nil_key]
    · simp only [hs, if_false]
      exact parseLoop_joinSep E _ items _ hitems
  refine ⟨storeItems E items (storeItems E before []
    ++ [(k, Value.data (sub.map (fun f => (f.1, Value.str f.2))))]), ?_, ?_⟩
  · unfold parse
    rw [hm]
    show (parseLoop E (parseFuel E (m + 1)) _ [] [] [] false).map _ = _
    rw [hscan]
    rfl
  · rw [storeItems_get_frame E items _ k (fun it hit => Ne.symm (hother it hit).1)
      (Or.inl (by simp [Data.has, hgk])) (fun it hit => (hother it hit).2), hgk]

theorem parse_quoted_submessage_witness :
    ∃ d : Data,
      parse demoExt (joinSep [("type".toList, "CWD".toList, " ".toList)] ++
        ("msg".toList ++ '=' :: squote ::
          (joinFields [("op".toList, "a".toList), ("res".toList, "b".toList)] ++ squote ::
            (" ".toList ++ joinSep [("cwd".toList, "/home".toList, [])]))))
        = some (d, none)
      ∧ Data.get d "msg".toList = some (Value.data
          ([("op".toList, "a".toList), ("res".toList, "b".toList)].map
            (fun f => (f.1, Value.str f.2)))) :=
  parse_quoted_submessage demoExt "msg".toList
    [("op".toList, "a".toList), ("res".toList, "b".toList)] " ".toList
    [("type".toList, "CWD".toList, " ".toList)]
    [("cwd".toList, "/home".toList, [])]
    (by decide) (by decide) (by decide) (by decide) (by decide) (by decide) (by decide)
    (by decide) (by decide) (by decide) (by decide) (by decide) (by decide) (by decide)

/-- C3 fails as stated: a pair `msg=audit(1:2)` inside the sub-message is turned
into `msg_timestamp` and `msg_id`, so the nested record has no field `msg`; and
when the key comes back five times after the sub-message, the fifth of them
overwrites the nested record. -/
theorem parse_quoted_submessage_counterexample :
    parse demoExt "k='msg=audit(1:2) a=b'".toList
        = some ([("k".toList, Value.data [("msg_timestamp".toList, Value.str "T1".toList),
            ("msg_id".toList, Value.str "2".toList), ("a".toList, Value.str "b".toList)])], none)
    ∧ parse demoExt "k='a=b' k=1 k=2 k=3 k=4 k=5".toList
        = some ([("k".toList, Value.str "5".toList), ("k_1".toList, Value.str "1".toList),
            ("k_2".toList, Value.str "2".toList), ("k_3".toList, Value.str "3".toList),
            ("k_4".toList, Value.str "4".toList)], none) := by
  refine ⟨?_, ?_⟩ <;> rfl

/-! ## The aggregation pass -/

theorem take_set_succ {α : Type} (xs : List α) (i : Nat) (x : α) (h : i < xs.length) :
    (xs.set i x).take (i + 1) = xs.take i ++ [x] := by
  induction xs generalizing i with
  | nil => simp at h
  | cons a t ih =>
    cases i with
    | zero => simp
    | succ n =>
      simp only [List.length_cons, Nat.add_lt_add_iff_right] at h
      simp [ih n h]

theorem aggStep_spec (E : Ext) (p : Parser) (s : AggState) (r : ParseResult)
    (h1 : s.dataIndex < s.datas.length)
    (h2 : s.datasourceIndex < s.se.DatasourceSkipIndex.length) :
    ∃ s1, aggStep E p s r = some s1 ∧ StepsTo E p s s1 r := by
  obtain ⟨line, idx, err, data⟩ := r
  obtain ⟨name, dis, nr, keep⟩ := p
  by_cases hl : line.length = 0
  · refine ⟨_, by simp [aggStep, hl, AggState.skip, writeAt, h2]; rfl, ?_⟩
    constructor <;>
      simp [rowOf, skipOf, isErrorOutcome, isSuccessOutcome, hl, take_set_succ _ _ _ h2]
  · cases err with
    | some e =>
      cases dis <;> cases keep <;>
        (refine ⟨_, by simp [aggStep, hl, AggState.skip, AggState.emit, writeAt, h1, h2]; rfl, ?_⟩
         constructor <;>
           simp [rowOf, skipOf, isErrorOutcome, isSuccessOutcome, hl,
             take_set_succ _ _ _ h1, take_set_succ _ _ _ h2])
    | none =>
      by_cases hd : data.length < 1
      · refine ⟨_, by simp [aggStep, hl, hd]; rfl, ?_⟩
        constructor <;> simp [rowOf, skipOf, isErrorOutcome, isSuccessOutcome, hl, hd]
      · refine ⟨_, by simp [aggStep, hl, hd, AggState.emit, writeAt, h1]; rfl, ?_⟩
        have hd2 : 1 ≤ data.length := by omega
        constructor <;>
          simp [rowOf, skipOf, isErrorOutcome, isSuccessOutcome, hl, hd, hd2,
            take_set_succ _ _ _ h1]

theorem filterMap_cons_toList {α β : Type} (f : α → Option β) (a : α) (l : List α) :
    (a :: l).filterMap f = (f a).toList ++ l.filterMap f := by
  cases h : f a <;> simp [List.filterMap_cons, h]

theorem toList_length_le_one {α : Type} (o : Option α) : o.toList.length ≤ 1 := by
  cases o <;> simp

theorem aggLoop_spec (E : Ext) (p : Parser) (rs : List ParseResult) (s : AggState)
    (h1 : s.dataIndex + rs.length ≤ s.datas.length)
    (h2 : s.datasourceIndex + rs.length ≤ s.se.DatasourceSkipIndex.length) :
    ∃ s1, aggLoop E p rs s = some s1 ∧ RunsTo E p s s1 rs := by
  induction rs generalizing s with
  | nil => exact ⟨s, rfl, by constructor <;> simp⟩
  | cons r rs ih =>
    simp only [List.length_cons] at h1 h2
    obtain ⟨s1, hs1, st⟩ := aggStep_spec E p s r (by omega) (by omega)
    have b1 := toList_length_le_one (rowOf E p r)
    have b2 := toList_length_le_one (skipOf p r)
    obtain ⟨s2, hs2, rt⟩ := ih s1
      (by rw [st.dataIndex, st.datasLen]; omega)
      (by rw [st.skipIndex, st.skipLen]; omega)
    refine ⟨s2, by simp [aggLoop, hs1, hs2], ?_⟩
    constructor
    · rw [rt.datasLen, st.datasLen]
    · rw [rt.skipLen, st.skipLen]
    · rw [rt.dataIndex, st.dataIndex, filterMap_cons_toList, List.length_append]
      omega
    · rw [rt.skipIndex, st.skipIndex, filterMap_cons_toList, List.length_append]
      omega
    · rw [rt.rows, st.rows, filterMap_cons_toList, List.append_assoc]
    · rw [rt.skips, st.skips, filterMap_cons_toList, List.append_assoc]
    · rw [rt.errors, st.errors, List.countP_cons]
      omega
    · rw [rt.success, st.success, List.countP_cons]
      omega

/-- Every outcome gives a row, a skipped index, or is an empty record: exactly
one of the three. -/
theorem outcome_partition (E : Ext) (p : Parser) (rs : List ParseResult) :
    (rs.filterMap (skipOf p)).length + (rs.filterMap (rowOf E p)).length
      + rs.countP isEmptyOutcome = rs.length := by
  induction rs with
  | nil => rfl
  | cons r rs ih =>
    rw [filterMap_cons_toList, filterMap_cons_toList, List.countP_cons, List.length_append,
      List.length_append, List.length_cons]
    have : (skipOf p r).toList.length + (rowOf E p r).toList.length
        + (if isEmptyOutcome r = true then 1 else 0) = 1 := by
      obtain ⟨line, idx, err, data⟩ := r
      obtain ⟨name, dis, nr, keep⟩ := p
      by_cases hl : line.length = 0
      · simp [rowOf, skipOf, isEmptyOutcome, hl]
      · cases err with
        | some e => cases dis <;> cases keep <;> simp [rowOf, skipOf, isEmptyOutcome, hl]
        | none =>
          by_cases hd : data.length < 1
          · simp [rowOf, skipOf, isEmptyOutcome, hl, hd]
          · simp [rowOf, skipOf, isEmptyOutcome, hl, hd]
    omega

theorem countP_isErrorOutcome_eq_zero (rs : List ParseResult) :
    rs.countP isErrorOutcome = 0
      ↔ ∀ r ∈ rs, r.Line.length ≠ 0 → r.Err = none ∧ 1 ≤ r.Data.length := by
  rw [List.countP_eq_zero]
  constructor
  · intro h r hr hl
    have := h r hr
    simp only [isErrorOutcome, Bool.and_eq_true, bne_iff_ne, ne_eq, Bool.or_eq_true,
      decide_eq_true_eq, not_and, not_or] at this
    have h2 := this hl
    refine ⟨?_, by omega⟩
    cases he : r.Err with
    | none => rfl
    | some e => simp [he] at h2
  · intro h r hr
    simp only [isErrorOutcome, Bool.and_eq_true, bne_iff_ne, ne_eq, Bool.or_eq_true,
      decide_eq_true_eq, not_and, not_or]
    intro hl
    obtain ⟨h1, h2⟩ := h r hr hl
    exact ⟨by simp [h1], by omega⟩

/-! ## The collector -/

theorem collect_fold (g : Nat → ParseResult) (hg : ∀ i, (g i).Index = i) (n : Nat)
    (order : List Nat) (slice : List ParseResult) (hlen : slice.length = n) :
    ((order.map g).foldl (fun sl r => sl.set r.Index r) slice).length = n
      ∧ ∀ i, i < n → ((order.map g).foldl (fun sl r => sl.set r.Index r) slice)[i]?
          = if i ∈ order then some (g i) else slice[i]? := by
  induction order generalizing slice with
  | nil => simp [hlen]
  | cons a order ih =>
    simp only [List.map_cons, List.foldl_cons, hg]
    obtain ⟨h1, h2⟩ := ih (slice.set a (g a)) (by simp [hlen])
    refine ⟨h1, fun i hi => ?_⟩
    rw [h2 i hi]
    by_cases hm : i ∈ order
    · simp [hm]
    · by_cases ha : i = a
      · subst ha
        simp [hm, hlen, hi]
      · simp [hm, ha, List.getElem?_set_ne (Ne.symm ha)]

theorem outcomesFrom_length (E : Ext) (j : Nat) (ls : List Str) :
    (outcomesFrom E j ls).length = ls.length := by
  induction ls generalizing j with
  | nil => rfl
  | cons l ls ih => simp [outcomesFrom, ih]

theorem outcomesFrom_getElem? (E : Ext) (j : Nat) (ls : List Str) (i : Nat) :
    (outcomesFrom E j ls)[i]?
      = (ls[i]?).map (fun l => ParseLine true (parseD E) { Line := l, Index := j + i }) := by
  induction ls generalizing j i with
  | nil => simp [outcomesFrom]
  | cons l ls ih =>
    cases i with
    | zero => simp [outcomesFrom]
    | succ i =>
      simp only [outcomesFrom, List.getElem?_cons_succ, ih]
      congr 2
      funext l
      congr 2
      omega

theorem ParseLine_Index (t : Bool) (h : Str → Data × Option Error) (info : ParseInfo) :
    (ParseLine t h info).Index = info.Index := by
  simp only [ParseLine]
  split_ifs <;> rfl

/-- With at least one worker, whatever the order in which the outcomes arrive,
the collector ends with the outcome of line `i` in slot `i`. -/
theorem collect_arrivals (E : Ext) (p : Parser) (lines : List Str) (order : List Nat)
    (hw : 1 ≤ p.numRoutine) (hperm : order.Perm (List.range lines.length)) :
    collect lines.length (arrivals E p lines order) = outcomesFrom E 0 lines := by
  cases hl : lines with
  | nil =>
    subst hl
    have h0 : (0 : Int) < p.numRoutine := by omega
    simp [collect, arrivals, numWorkers, outcomesFrom, h0]
  | cons l0 ls0 =>
    rw [← hl]
    have hpos : 0 < numWorkers p lines.length := by
      unfold numWorkers
      have : (0 : Int) < (lines.length : Int) := by
        rw [hl]
        simp only [List.length_cons, Nat.cast_add, Nat.cast_one]
        omega
      split <;> omega
    have hmem : ∀ i, i ∈ order ↔ i < lines.length := by
      intro i
      rw [hperm.mem_iff, List.mem_range]
    have harr : arrivals E p lines order
        = order.map (fun i => ParseLine true (parseD E)
            { Line := (lines[i]?).getD [], Index := i }) := by
      simp only [arrivals, hpos, if_true]
      rw [← List.filterMap_eq_map]
      apply List.filterMap_congr
      intro i hi
      have hi2 := (hmem i).1 hi
      simp [List.get?_eq_getElem?, List.getElem?_eq_getElem hi2]
    obtain ⟨h1, h2⟩ := collect_fold
      (fun i => ParseLine true (parseD E) { Line := (lines[i]?).getD [], Index := i })
      (fun i => ParseLine_Index _ _ _)
      lines.length order (List.replicate lines.length ParseResult.zero) (by simp)
    apply List.ext_getElem?
    intro i
    by_cases hi : i < lines.length
    · rw [collect, harr, h2 i hi, outcomesFrom_getElem?]
      simp [(hmem i).2 hi, List.getElem?_eq_getElem hi]
    · rw [List.getElem?_eq_none (by rw [collect, harr, h1]; omega),
        List.getElem?_eq_none (by rw [outcomesFrom_length]; omega)]

/-! ## The batch parser -/

theorem collect_length (n : Nat) (rs : List ParseResult) : (collect n rs).length = n := by
  unfold collect
  generalize hs : List.replicate n ParseResult.zero = slice
  have hlen : slice.length = n := by simp [← hs]
  clear hs
  induction rs generalizing slice with
  | nil => simpa using hlen
  | cons r rs ih =>
    simp only [List.foldl_cons]
    exact ih _ (by simp [hlen])

/-- The aggregation pass never runs out of its slices, and its result is read
off the outcomes: the rows, the skipped indices and the two counters. -/
theorem ParseStats_spec (E : Ext) (p : Parser) (lines : List Str) (order : List Nat) :
    ∃ se : StatsError,
      ParseStats E p lines order
        = some ((collect lines.length (arrivals E p lines order)).filterMap (rowOf E p), se)
      ∧ se.DatasourceSkipIndex
        = (collect lines.length (arrivals E p lines order)).filterMap (skipOf p)
      ∧ se.Errors = (collect lines.length (arrivals E p lines order)).countP isErrorOutcome
      ∧ se.Success = (collect lines.length (arrivals E p lines order)).countP isSuccessOutcome := by
  have hlen := collect_length lines.length (arrivals E p lines order)
  obtain ⟨s1, hs1, rt⟩ := aggLoop_spec E p (collect lines.length (arrivals E p lines order))
    (AggState.init lines.length) (by simp [AggState.init, hlen]) (by simp [AggState.init, hlen])
  have hrows : s1.datas.take s1.dataIndex
      = (collect lines.length (arrivals E p lines order)).filterMap (rowOf E p) := by
    have := rt.rows
    simpa [AggState.init] using this
  refine ⟨{ s1.se with
      DatasourceSkipIndex := s1.se.DatasourceSkipIndex.take s1.datasourceIndex }, ?_, ?_, ?_, ?_⟩
  · simp only [ParseStats, hs1, Option.map_some', hrows]
  · have := rt.skips
    simpa [AggState.init] using this
  · have := rt.errors
    simpa [AggState.init] using this
  · have := rt.success
    simpa [AggState.init] using this

theorem ParseStats_rows (E : Ext) (p : Parser) (lines : List Str) (order : List Nat) :
    ∃ se : StatsError,
      ParseStats E p lines order
        = some ((collect lines.length (arrivals E p lines order)).filterMap (rowOf E p), se) := by
  obtain ⟨se, h, _⟩ := ParseStats_spec E p lines order
  exact ⟨se, h⟩

theorem rows_of_outcomes (E : Ext) (p : Parser) (hraw : p.keepRawData = false) (j : Nat)
    (lines : List Str) :
    (outcomesFrom E j lines).filterMap (rowOf E p)
      = (((lines.map TrimSpace).filter (fun l => decide (l.length ≠ 0))).map
          (fun l => (parseD E l).1)).filter (fun d => decide (1 ≤ d.length)) := by
  induction lines generalizing j with
  | nil => rfl
  | cons l ls ih =>
    rw [outcomesFrom, filterMap_cons_toList, ih (j + 1), List.map_cons, List.filter_cons]
    by_cases ht : (TrimSpace l).length = 0
    · have ht2 : TrimSpace l = [] := List.length_eq_zero.1 ht
      have hr : rowOf E p (ParseLine true (parseD E) { Line := l, Index := j }) = none := by
        simp [ParseLine, rowOf, ht2]
      rw [hr, if_neg (by simp [ht2])]
      rfl
    · have ht2 : TrimSpace l ≠ [] := fun h => ht (List.length_eq_zero.2 h)
      rw [if_pos (by simp [ht2]), List.map_cons, List.filter_cons]
      by_cases hd : ((parseD E (TrimSpace l)).1).length < 1
      · have hr : rowOf E p (ParseLine true (parseD E) { Line := l, Index := j }) = none := by
          simp only [ParseLine, rowOf, if_true, ht, if_false, parseD_err, hd]
        rw [hr, if_neg (by simpa using hd)]
        rfl
      · have hr : rowOf E p (ParseLine true (parseD E) { Line := l, Index := j })
            = some (parseD E (TrimSpace l)).1 := by
          simp only [ParseLine, rowOf, if_true, ht, if_false, parseD_err, hd, hraw]
          rfl
        have hd2 : 1 ≤ ((parseD E (TrimSpace l)).1).length := by omega
        rw [hr, if_pos (by simpa using hd2)]
        rfl

/-- C8: with at least one worker and `keepRawData` unset, whatever the order in
which the workers answer, `Parser.Parse` returns, in input order, exactly the
records `Parser.parse` yields on the trimmed lines that are not blank and whose
record is not empty. (`parseD` is the result of `parse`, which returns on every
line.) -/
theorem Parse_rows_in_input_order (E : Ext) (p : Parser) (lines : List Str) (order : List Nat)
    (hw : 1 ≤ p.numRoutine) (hraw : p.keepRawData = false)
    (hperm : order.Perm (List.range lines.length)) :
    (∃ err, Parse E p lines order
      = some ((((lines.map TrimSpace).filter (fun l => decide (l.length ≠ 0))).map
          (fun l => (parseD E l).1)).filter (fun d => decide (1 ≤ d.length)), err))
    ∧ ∀ l, parse E l = some (parseD E l) := by
  refine ⟨?_, parse_eq_parseD E⟩
  obtain ⟨se, h⟩ := ParseStats_rows E p lines order
  rw [collect_arrivals E p lines order hw hperm, rows_of_outcomes E p hraw] at h
  exact ⟨if se.Errors = 0 then none else some se, by simp only [Parse, h, Option.map_some']⟩

theorem Parse_rows_in_input_order_witness :
    (∃ err, Parse demoExt
        { name := [], disableRecordErrData := false, numRoutine := 2, keepRawData := false }
        ["a=b".toList, [], "noise".toList, " c=d ".toList] [3, 1, 0, 2]
      = some ((((["a=b".toList, [], "noise".toList, " c=d ".toList].map TrimSpace).filter
          (fun l => decide (l.length ≠ 0))).map
          (fun l => (parseD demoExt l).1)).filter (fun d => decide (1 ≤ d.length)), err))
    ∧ ∀ l, parse demoExt l = some (parseD demoExt l) :=
  Parse_rows_in_input_order demoExt
    { name := [], disableRecordErrData := false, numRoutine := 2, keepRawData := false }
    ["a=b".toList, [], "noise".toList, " c=d ".toList] [3, 1, 0, 2]
    (by decide) rfl (by decide)

theorem mem_collect (n : Nat) (rs : List ParseResult) (r : ParseResult)
    (h : r ∈ collect n rs) : r = ParseResult.zero ∨ r ∈ rs := by
  unfold collect at h
  have key : ∀ (rs : List ParseResult) (slice : List ParseResult),
      r ∈ rs.foldl (fun sl x => sl.set x.Index x) slice → r ∈ slice ∨ r ∈ rs := by
    intro rs
    induction rs with
    | nil => intro slice h; exact Or.inl h
    | cons x xs ih =>
      intro slice h
      rcases ih _ h with h1 | h1
      · rcases List.mem_or_eq_of_mem_set h1 with h2 | h2
        · exact Or.inl h2
        · exact Or.inr (h2 ▸ List.mem_cons_self _ _)
      · exact Or.inr (List.mem_cons_of_mem _ h1)
  rcases key rs _ h with h1 | h1
  · exact Or.inl (List.eq_of_mem_replicate h1)
  · exact Or.inr h1

theorem ParseLine_parseD_err (E : Ext) (t : Bool) (info : ParseInfo) :
    (ParseLine t (parseD E) info).Err = none := by
  unfold ParseLine
  simp only
  split <;> split <;> first | rfl | exact parseD_err E _

/-- No outcome of `Parser.Parse` carries a tokenizer error: `parse` never
returns one, and a blank line is answered without calling it. -/
theorem collect_arrivals_err (E : Ext) (p : Parser) (lines : List Str) (order : List Nat)
    (r : ParseResult) (h : r ∈ collect lines.length (arrivals E p lines order)) :
    r.Err = none := by
  rcases mem_collect _ _ r h with rfl | h1
  · rfl
  · unfold arrivals at h1
    split at h1
    · rw [List.mem_filterMap] at h1
      obtain ⟨i, _, hi⟩ := h1
      rw [Option.map_eq_some'] at hi
      obtain ⟨l, _, rfl⟩ := hi
      exact ParseLine_parseD_err E _ _
    · cases h1

/-- C9: `Parser.Parse` returns a nil error exactly when the error count is zero
and the stats object (counts, last error text, skip-index list) otherwise, with
the same rows in both cases; the error count is zero exactly when no outcome
carries a tokenizer error and no non-blank line yields an empty record; and the
row of every successful outcome is among the rows returned. -/
theorem Parse_error_iff (E : Ext) (p : Parser) (lines : List Str) (order : List Nat) :
    ∃ (rows : List Data) (se : StatsError),
      ParseStats E p lines order = some (rows, se)
      ∧ Parse E p lines order = some (rows, if se.Errors = 0 then none else some se)
      ∧ (se.Errors = 0 ↔
          (∀ r ∈ collect lines.length (arrivals E p lines order), r.Err = none)
          ∧ ∀ r ∈ collect lines.length (arrivals E p lines order),
              r.Line.length ≠ 0 → 1 ≤ r.Data.length)
      ∧ ∀ r ∈ collect lines.length (arrivals E p lines order),
          r.Line.length ≠ 0 → r.Err = none → 1 ≤ r.Data.length →
          (if p.keepRawData then Data.put r.Data E.KeyRawData (Value.str r.Line) else r.Data)
            ∈ rows := by
  obtain ⟨se, h, _, herr, _⟩ := ParseStats_spec E p lines order
  refine ⟨_, se, h, by simp only [Parse, h, Option.map_some'], ?_, ?_⟩
  · rw [herr, countP_isErrorOutcome_eq_zero]
    constructor
    · intro hall
      exact ⟨fun r hr => collect_arrivals_err E p lines order r hr,
        fun r hr hl => (hall r hr hl).2⟩
    · intro hall r hr hl
      exact ⟨hall.1 r hr, hall.2 r hr hl⟩
  · intro r hr hl he hd
    rw [List.mem_filterMap]
    refine ⟨r, hr, ?_⟩
    have hd2 : ¬ r.Data.length < 1 := by omega
    simp [rowOf, hl, he, hd2]

/-- C10, as amended: the skipped indices, the output rows and the non-blank
lines parsed without error into an empty record together account for every
input line; so `len(DatasourceSkipIndex)` is `lineCount - len(rows)` less the
number of such empty records, and equals `lineCount - len(rows)` exactly when
there is none. -/
theorem Parse_skip_count (E : Ext) (p : Parser) (lines : List Str) (order : List Nat) :
    ∃ (rows : List Data) (se : StatsError),
      ParseStats E p lines order = some (rows, se)
      ∧ se.DatasourceSkipIndex.length + rows.length
          + (collect lines.length (arrivals E p lines order)).countP isEmptyOutcome
        = lines.length
      ∧ se.DatasourceSkipIndex.length
        = lines.length - rows.length
          - (collect lines.length (arrivals E p lines order)).countP isEmptyOutcome
      ∧ (se.DatasourceSkipIndex.length = lines.length - rows.length
          ↔ (collect lines.length (arrivals E p lines order)).countP isEmptyOutcome = 0) := by
  obtain ⟨se, h, hskip, _⟩ := ParseStats_spec E p lines order
  have hp := outcome_partition E p (collect lines.length (arrivals E p lines order))
  rw [collect_length] at hp
  refine ⟨_, se, h, ?_, ?_, ?_⟩
  · rw [hskip]
    exact hp
  · rw [hskip]
    omega
  · rw [hskip]
    omega

/-- C10 fails as stated: the one line `noise` is parsed into an empty record; it
gives no row and no skipped index, so the skip list has length 0 and not 1 - 0. -/
theorem Parse_skip_count_counterexample :
    ∃ (rows : List Data) (se : StatsError),
      ParseStats demoExt
          { name := [], disableRecordErrData := false, numRoutine := 1, keepRawData := false }
          ["noise".toList] [0] = some (rows, se)
      ∧ rows = [] ∧ se.DatasourceSkipIndex = []
      ∧ se.DatasourceSkipIndex.length ≠ ["noise".toList].length - rows.length :=
  ⟨[], { Errors := 1, Success := 0, LastError := "parsed no data by line noise".toList,
         DatasourceSkipIndex := [] }, rfl, rfl, rfl, by decide⟩

/-! ## The aggregation pass, outcome by outcome -/

/-- C11: for a non-blank line parsed without error into an empty record, and
for every configuration, the aggregation step adds one to the error count, sets
the last error to `parsed no data by line ` followed by the line, writes no row
and no skipped index, and leaves the success count as it was. -/
theorem aggStep_empty_record (E : Ext) (p : Parser) (s : AggState) (r : ParseResult)
    (hl : r.Line.length ≠ 0) (he : r.Err = none) (hd : r.Data.length = 0) :
    ∃ s1, aggStep E p s r = some s1
      ∧ s1.se.Errors = s.se.Errors + 1
      ∧ s1.se.LastError = "parsed no data by line ".toList ++ r.Line
      ∧ s1.datas = s.datas ∧ s1.dataIndex = s.dataIndex
      ∧ s1.se.Success = s.se.Success
      ∧ s1.se.DatasourceSkipIndex = s.se.DatasourceSkipIndex
      ∧ s1.datasourceIndex = s.datasourceIndex := by
  refine ⟨{ s with se := { s.se with
    LastError := "parsed no data by line ".toList ++ r.Line, Errors := s.se.Errors + 1 } },
    ?_, rfl, rfl, rfl, rfl, rfl, rfl, rfl⟩
  simp [aggStep, hl, he, hd]

theorem aggStep_empty_record_witness :
    ∃ s1, aggStep demoExt
        { name := [], disableRecordErrData := true, numRoutine := 1, keepRawData := true }
        (AggState.init 4) { Line := "noise".toList, Index := 3, Err := none, Data := [] } = some s1
      ∧ s1.se.Errors = (AggState.init 4).se.Errors + 1
      ∧ s1.se.LastError = "parsed no data by line ".toList ++ "noise".toList
      ∧ s1.datas = (AggState.init 4).datas ∧ s1.dataIndex = (AggState.init 4).dataIndex
      ∧ s1.se.Success = (AggState.init 4).se.Success
      ∧ s1.se.DatasourceSkipIndex = (AggState.init 4).se.DatasourceSkipIndex
      ∧ s1.datasourceIndex = (AggState.init 4).datasourceIndex :=
  aggStep_empty_record demoExt
    { name := [], disableRecordErrData := true, numRoutine := 1, keepRawData := true }
    (AggState.init 4) { Line := "noise".toList, Index := 3, Err := none, Data := [] }
    (by decide) rfl rfl

theorem skipOf_outcomes (E : Ext) (p : Parser) (j : Nat) (ls : List Str) :
    (outcomesFrom E j ls).filterMap (skipOf p) = blankFrom j ls := by
  induction ls generalizing j with
  | nil => rfl
  | cons l ls ih =>
    rw [outcomesFrom, filterMap_cons_toList, ih (j + 1), blankFrom]
    by_cases ht : (TrimSpace l).length = 0
    · have hr : skipOf p (ParseLine true (parseD E) { Line := l, Index := j }) = some j := by
        simp only [ParseLine, skipOf, if_true, ht]
      rw [hr, if_pos ht]
      rfl
    · have hr : skipOf p (ParseLine true (parseD E) { Line := l, Index := j }) = none := by
        simp only [ParseLine, skipOf, if_true, ht, if_false, parseD_err]
      rw [hr, if_neg ht]
      rfl

theorem mem_blankFrom (j : Nat) (ls : List Str) (i : Nat) :
    i ∈ blankFrom j ls ↔ ∃ m l, i = j + m ∧ ls[m]? = some l ∧ (TrimSpace l).length = 0 := by
  induction ls generalizing j with
  | nil => simp [blankFrom]
  | cons a ls ih =>
    have hrest : (∃ m l, i = j + 1 + m ∧ ls[m]? = some l ∧ (TrimSpace l).length = 0)
        ↔ ∃ m l, i = j + (m + 1) ∧ (a :: ls)[m + 1]? = some l ∧ (TrimSpace l).length = 0 := by
      constructor
      · rintro ⟨m, l, h1, h2, h3⟩
        exact ⟨m, l, by omega, by simpa using h2, h3⟩
      · rintro ⟨m, l, h1, h2, h3⟩
        exact ⟨m, l, by omega, by simpa using h2, h3⟩
    unfold blankFrom
    constructor
    · intro h
      by_cases ht : (TrimSpace a).length = 0
      · rw [if_pos ht] at h
        rcases List.mem_cons.1 h with h0 | h0
        · exact ⟨0, a, by omega, by simp, ht⟩
        · obtain ⟨m, l, h1, h2, h3⟩ := hrest.1 ((ih (j + 1)).1 h0)
          exact ⟨m + 1, l, h1, h2, h3⟩
      · rw [if_neg ht] at h
        obtain ⟨m, l, h1, h2, h3⟩ := hrest.1 ((ih (j + 1)).1 h)
        exact ⟨m + 1, l, h1, h2, h3⟩
    · rintro ⟨m, l, h1, h2, h3⟩
      cases m with
      | zero =>
        simp only [List.getElem?_cons_zero, Option.some.injEq] at h2
        subst h2
        rw [if_pos h3]
        exact List.mem_cons.2 (Or.inl (by omega))
      | succ m =>
        have := (ih (j + 1)).2 (hrest.2 ⟨m, l, h1, h2, h3⟩)
        split
        · exact List.mem_cons_of_mem _ this
        · exact this

theorem blankFrom_pairwise (j : Nat) (ls : List Str) :
    (blankFrom j ls).Pairwise (· < ·) := by
  induction ls generalizing j with
  | nil => simp [blankFrom]
  | cons a ls ih =>
    unfold blankFrom
    split
    · rw [List.pairwise_cons]
      refine ⟨fun i hi => ?_, ih (j + 1)⟩
      obtain ⟨m, l, h1, _, _⟩ := (mem_blankFrom (j + 1) ls i).1 hi
      omega
    · exact ih (j + 1)

/-- A blank outcome only marks its index as skipped. -/
theorem aggStep_blank (E : Ext) (p : Parser) (s : AggState) (r : ParseResult)
    (hl : r.Line.length = 0) (hroom : s.datasourceIndex < s.se.DatasourceSkipIndex.length) :
    aggStep E p s r = some { s with
      se := { s.se with
        DatasourceSkipIndex := s.se.DatasourceSkipIndex.set s.datasourceIndex r.Index },
      datasourceIndex := s.datasourceIndex + 1 } := by
  simp [aggStep, hl, AggState.skip, writeAt, hroom]

/-- C12: with at least one worker (and so no tokenizer error in any outcome),
the skip-index list of `Parser.Parse` is strictly increasing and holds exactly
the original indices of the lines that are blank after trimming; and the step
for a blank outcome writes no row and changes neither counter. -/
theorem Parse_skip_list_blank_lines (E : Ext) (p : Parser) (lines : List Str) (order : List Nat)
    (hw : 1 ≤ p.numRoutine) (hperm : order.Perm (List.range lines.length)) :
    (∃ (rows : List Data) (se : StatsError),
      ParseStats E p lines order = some (rows, se)
      ∧ se.DatasourceSkipIndex.Pairwise (· < ·)
      ∧ ∀ i, i ∈ se.DatasourceSkipIndex
          ↔ ∃ l, lines[i]? = some l ∧ (TrimSpace l).length = 0)
    ∧ ∀ (s : AggState) (r : ParseResult), r.Line.length = 0 →
        s.datasourceIndex < s.se.DatasourceSkipIndex.length →
        ∃ s1, aggStep E p s r = some s1
          ∧ s1.datas = s.datas ∧ s1.dataIndex = s.dataIndex
          ∧ s1.se.Errors = s.se.Errors ∧ s1.se.Success = s.se.Success
          ∧ s1.se.LastError = s.se.LastError
          ∧ s1.se.DatasourceSkipIndex = s.se.DatasourceSkipIndex.set s.datasourceIndex r.Index
          ∧ s1.datasourceIndex = s.datasourceIndex + 1 := by
  constructor
  · obtain ⟨se, h, hskip, _⟩ := ParseStats_spec E p lines order
    rw [collect_arrivals E p lines order hw hperm, skipOf_outcomes] at hskip
    refine ⟨_, se, h, ?_, ?_⟩
    · rw [hskip]
      exact blankFrom_pairwise 0 lines
    · intro i
      rw [hskip, mem_blankFrom]
      constructor
      · rintro ⟨m, l, h1, h2, h3⟩
        have : i = m := by omega
        subst this
        exact ⟨l, h2, h3⟩
      · rintro ⟨l, h2, h3⟩
        exact ⟨i, l, by omega, h2, h3⟩
  · intro s r hl hroom
    exact ⟨_, aggStep_blank E p s r hl hroom, rfl, rfl, rfl, rfl, rfl, rfl, rfl⟩

theorem Parse_skip_list_blank_lines_witness :
    (∃ (rows : List Data) (se : StatsError),
      ParseStats demoExt
          { name := [], disableRecordErrData := false, numRoutine := 3, keepRawData := false }
          ["a=b".toList, [], "noise".toList, "  ".toList] [2, 0, 3, 1] = some (rows, se)
      ∧ se.DatasourceSkipIndex.Pairwise (· < ·)
      ∧ ∀ i, i ∈ se.DatasourceSkipIndex
          ↔ ∃ l, ["a=b".toList, [], "noise".toList, "  ".toList][i]? = some l
              ∧ (TrimSpace l).length = 0)
    ∧ ∀ (s : AggState) (r : ParseResult), r.Line.length = 0 →
        s.datasourceIndex < s.se.DatasourceSkipIndex.length →
        ∃ s1, aggStep demoExt
            { name := [], disableRecordErrData := false, numRoutine := 3, keepRawData := false }
            s r = some s1
          ∧ s1.datas = s.datas ∧ s1.dataIndex = s.dataIndex
          ∧ s1.se.Errors = s.se.Errors ∧ s1.se.Success = s.se.Success
          ∧ s1.se.LastError = s.se.LastError
          ∧ s1.se.DatasourceSkipIndex = s.se.DatasourceSkipIndex.set s.datasourceIndex r.Index
          ∧ s1.datasourceIndex = s.datasourceIndex + 1 :=
  Parse_skip_list_blank_lines demoExt
    { name := [], disableRecordErrData := false, numRoutine := 3, keepRawData := false }
    ["a=b".toList, [], "noise".toList, "  ".toList] [2, 0, 3, 1] (by decide) (by decide)

/-- C13, as amended: for a non-blank line whose outcome carries a tokenizer
error, the aggregation step adds one to the error count, sets the last error to
the message of that error and leaves the success count as it was. With
`disableRecordErrData` set and `keepRawData` unset it marks the index skipped
and writes no row. With `disableRecordErrData` unset it writes a row that holds
the line under the stash field, and under the raw-data field too when
`keepRawData` is set. With both set it writes a row that holds the line under
the raw-data field only. -/
theorem aggStep_error_outcome (E : Ext) (p : Parser) (s : AggState) (r : ParseResult)
    (e : Error) (hl : r.Line.length ≠ 0) (he : r.Err = some e)
    (h1 : s.dataIndex < s.datas.length)
    (h2 : s.datasourceIndex < s.se.DatasourceSkipIndex.length) :
    ∃ s1, aggStep E p s r = some s1
      ∧ s1.se.Errors = s.se.Errors + 1 ∧ s1.se.LastError = e ∧ s1.se.Success = s.se.Success
      ∧ (p.disableRecordErrData = true ∧ p.keepRawData = false →
          s1.se.DatasourceSkipIndex = s.se.DatasourceSkipIndex.set s.datasourceIndex r.Index
          ∧ s1.datasourceIndex = s.datasourceIndex + 1
          ∧ s1.datas = s.datas ∧ s1.dataIndex = s.dataIndex)
      ∧ (p.disableRecordErrData = false →
          ∃ row : Data, s1.datas = s.datas.set s.dataIndex row
            ∧ s1.dataIndex = s.dataIndex + 1
            ∧ s1.se.DatasourceSkipIndex = s.se.DatasourceSkipIndex
            ∧ s1.datasourceIndex = s.datasourceIndex
            ∧ Data.get row E.KeyPandoraStash = some (Value.str r.Line)
            ∧ (p.keepRawData = true → Data.get row E.KeyRawData = some (Value.str r.Line))
            ∧ (p.keepRawData = false → row = [(E.KeyPandoraStash, Value.str r.Line)]))
      ∧ (p.disableRecordErrData = true ∧ p.keepRawData = true →
          s1.datas = s.datas.set s.dataIndex [(E.KeyRawData, Value.str r.Line)]
          ∧ s1.dataIndex = s.dataIndex + 1
          ∧ s1.se.DatasourceSkipIndex = s.se.DatasourceSkipIndex
          ∧ s1.datasourceIndex = s.datasourceIndex) := by
  obtain ⟨line, idx, err, data⟩ := r
  obtain ⟨name, dis, nr, keep⟩ := p
  simp only at hl he
  subst he
  cases dis <;> cases keep
  · refine ⟨{ s with
        datas := s.datas.set s.dataIndex (Data.put [] E.KeyPandoraStash (Value.str line)),
        dataIndex := s.dataIndex + 1,
        se := { s.se with Errors := s.se.Errors + 1, LastError := e } },
      by simp [aggStep, hl, AggState.emit, writeAt, h1], rfl, rfl, rfl, ?_, ?_, ?_⟩
    · intro h
      simp at h
    · intro _
      exact ⟨_, rfl, rfl, rfl, rfl, by simp [Data.put, Data.get], by simp, fun _ => rfl⟩
    · intro h
      simp at h
  · refine ⟨{ s with
        datas := s.datas.set s.dataIndex
          (Data.put (Data.put [] E.KeyPandoraStash (Value.str line)) E.KeyRawData (Value.str line)),
        dataIndex := s.dataIndex + 1,
        se := { s.se with Errors := s.se.Errors + 1, LastError := e } },
      by simp [aggStep, hl, AggState.emit, writeAt, h1], rfl, rfl, rfl, ?_, ?_, ?_⟩
    · intro h
      simp at h
    · intro _
      refine ⟨_, rfl, rfl, rfl, rfl, ?_, fun _ => Data.get_put_self _ _ _, by simp⟩
      by_cases hk : E.KeyPandoraStash = E.KeyRawData
      · rw [hk]
        exact Data.get_put_self _ _ _
      · rw [Data.get_put_ne _ _ hk]
        simp [Data.put, Data.get]
    · intro h
      simp at h
  · refine ⟨{ s with
        se := {
          Errors := s.se.Errors + 1
          Success := s.se.Success
          LastError := e
          DatasourceSkipIndex := s.se.DatasourceSkipIndex.set s.datasourceIndex idx },
        datasourceIndex := s.datasourceIndex + 1 },
      by simp [aggStep, hl, AggState.skip, writeAt, h2], rfl, rfl, rfl, ?_, ?_, ?_⟩
    · intro _
      exact ⟨rfl, rfl, rfl, rfl⟩
    · intro h
      simp at h
    · intro h
      simp at h
  · refine ⟨{ s with
        datas := s.datas.set s.dataIndex (Data.put [] E.KeyRawData (Value.str line)),
        dataIndex := s.dataIndex + 1,
        se := { s.se with Errors := s.se.Errors + 1, LastError := e } },
      by simp [aggStep, hl, AggState.emit, writeAt, h1], rfl, rfl, rfl, ?_, ?_, ?_⟩
    · intro h
      simp at h
    · intro h
      simp at h
    · intro _
      exact ⟨rfl, rfl, rfl, rfl⟩

theorem aggStep_error_outcome_witness :
    ∃ s1, aggStep demoExt
        { name := [], disableRecordErrData := false, numRoutine := 1, keepRawData := true }
        (AggState.init 2)
        { Line := "x=".toList, Index := 1, Err := some "boom".toList, Data := [] } = some s1
      ∧ s1.se.Errors = (AggState.init 2).se.Errors + 1 ∧ s1.se.LastError = "boom".toList
      ∧ s1.se.Success = (AggState.init 2).se.Success := by
  obtain ⟨s1, h, a, b, c, _⟩ := aggStep_error_outcome demoExt
    { name := [], disableRecordErrData := false, numRoutine := 1, keepRawData := true }
    (AggState.init 2)
    { Line := "x=".toList, Index := 1, Err := some "boom".toList, Data := [] }
    "boom".toList (by decide) rfl (by decide) (by decide)
  exact ⟨s1, h, a, b, c⟩

/-- C13 fails as stated: with `disableRecordErrData` and `keepRawData` both set,
the row of an erroring line holds the line under the raw-data field only; there
is nothing under the stash field. -/
theorem aggStep_error_outcome_counterexample :
    ∃ s1, aggStep demoExt
        { name := [], disableRecordErrData := true, numRoutine := 1, keepRawData := true }
        (AggState.init 1)
        { Line := "x=".toList, Index := 0, Err := some "boom".toList, Data := [] } = some s1
      ∧ s1.datas = [[("raw_data".toList, Value.str "x=".toList)]]
      ∧ s1.dataIndex = 1
      ∧ Data.get [("raw_data".toList, Value.str "x=".toList)] demoExt.KeyPandoraStash = none :=
  ⟨_, rfl, rfl, rfl, rfl⟩

/-! ## The counters -/

theorem rows_of_no_error (E : Ext) (p : Parser) (rs : List ParseResult)
    (h : ∀ r ∈ rs, r.Err = none) :
    (rs.filterMap (rowOf E p)).length = rs.countP isSuccessOutcome
      ∧ rs.countP isErrorOutcome = rs.countP isEmptyOutcome := by
  induction rs with
  | nil => exact ⟨rfl, rfl⟩
  | cons r rs ih =>
    obtain ⟨ih1, ih2⟩ := ih (fun x hx => h x (List.mem_cons_of_mem _ hx))
    have he := h r (List.mem_cons_self _ _)
    rw [filterMap_cons_toList, List.length_append, List.countP_cons, List.countP_cons,
      List.countP_cons, ih1, ih2]
    obtain ⟨line, idx, err, data⟩ := r
    simp only at he
    subst he
    by_cases hl : line.length = 0
    · simp [rowOf, isSuccessOutcome, isErrorOutcome, isEmptyOutcome, hl]
    · by_cases hd : data.length < 1
      · have hd2 : ¬ 1 ≤ data.length := by omega
        simp [rowOf, isSuccessOutcome, isErrorOutcome, isEmptyOutcome, hl, hd, hd2]
      · have hd2 : 1 ≤ data.length := by omega
        simp [rowOf, isSuccessOutcome, isErrorOutcome, isEmptyOutcome, hl, hd, hd2]
        omega

/-- C20: for every batch and configuration the aggregation pass ends without
indexing out of its pre-sized slices, no outcome carries a tokenizer error, the
success count is the number of output rows, success count + error count +
number of skipped indices is the number of input lines, and the two write
indices end at the number of rows and of skipped indices, both at most
`lineCount`. -/
theorem Parse_counters_partition (E : Ext) (p : Parser) (lines : List Str) (order : List Nat) :
    ∃ (s : AggState) (rows : List Data) (se : StatsError),
      aggLoop E p (collect lines.length (arrivals E p lines order)) (AggState.init lines.length)
        = some s
      ∧ ParseStats E p lines order = some (rows, se)
      ∧ (∀ r ∈ collect lines.length (arrivals E p lines order), r.Err = none)
      ∧ se.Success = rows.length
      ∧ se.Success + se.Errors + se.DatasourceSkipIndex.length = lines.length
      ∧ s.dataIndex = rows.length ∧ s.datasourceIndex = se.DatasourceSkipIndex.length
      ∧ s.dataIndex ≤ lines.length ∧ s.datasourceIndex ≤ lines.length
      ∧ s.datas.length = lines.length ∧ s.se.DatasourceSkipIndex.length = lines.length := by
  have hlen := collect_length lines.length (arrivals E p lines order)
  obtain ⟨s, hs, rt⟩ := aggLoop_spec E p (collect lines.length (arrivals E p lines order))
    (AggState.init lines.length) (by simp [AggState.init, hlen]) (by simp [AggState.init, hlen])
  obtain ⟨se, h, hskip, herr, hsucc⟩ := ParseStats_spec E p lines order
  have hnoerr := fun r hr => collect_arrivals_err E p lines order r hr
  obtain ⟨hrows, hempty⟩ := rows_of_no_error E p _ hnoerr
  have hp := outcome_partition E p (collect lines.length (arrivals E p lines order))
  rw [hlen] at hp
  have hdi : s.dataIndex
      = ((collect lines.length (arrivals E p lines order)).filterMap (rowOf E p)).length := by
    have := rt.dataIndex
    simpa [AggState.init] using this
  have hsi : s.datasourceIndex
      = ((collect lines.length (arrivals E p lines order)).filterMap (skipOf p)).length := by
    have := rt.skipIndex
    simpa [AggState.init] using this
  refine ⟨s, _, se, hs, h, hnoerr, ?_, ?_, hdi, ?_, ?_, ?_, ?_, ?_⟩
  · rw [hsucc, hrows]
  · rw [hsucc, herr, hskip, hempty, ← hrows]
    omega
  · rw [hsi, hskip]
  · rw [hdi]
    omega
  · rw [hsi]
    omega
  · have := rt.datasLen
    simpa [AggState.init] using this
  · have := rt.skipLen
    simpa [AggState.init] using this

/-! ## The worker count and the schedule -/

theorem aggLoop_flags (E : Ext) (p q : Parser)
    (h1 : p.disableRecordErrData = q.disableRecordErrData) (h2 : p.keepRawData = q.keepRawData)
    (rs : List ParseResult) (s : AggState) : aggLoop E p rs s = aggLoop E q rs s := by
  induction rs generalizing s with
  | nil => rfl
  | cons r rs ih =>
    have hstep : aggStep E p s r = aggStep E q s r := by
      simp only [aggStep, h1, h2]
    simp only [aggLoop, hstep]
    cases aggStep E q s r with
    | none => rfl
    | some s1 => exact ih s1

theorem collect_arrivals_any (E : Ext) (p : Parser) (lines : List Str) (order : List Nat)
    (hw : 1 ≤ p.numRoutine ∨ lines = []) (hperm : order.Perm (List.range lines.length)) :
    collect lines.length (arrivals E p lines order) = outcomesFrom E 0 lines := by
  rcases hw with hw | hw
  · exact collect_arrivals E p lines order hw hperm
  · subst hw
    have : (collect ([] : List Str).length (arrivals E p [] order)).length = 0 :=
      collect_length _ _
    rw [List.length_eq_zero] at this
    rw [this]
    rfl

/-- C14: for every batch, `Parser.Parse` run with one worker and run with as
many workers as there are lines returns the same rows in the same order, the
same error and the same stats, whatever the order in which the outcomes reach
the collector in either run. -/
theorem Parse_worker_count_independent (E : Ext) (p : Parser) (lines : List Str)
    (order1 order2 : List Nat)
    (h1 : order1.Perm (List.range lines.length))
    (h2 : order2.Perm (List.range lines.length)) :
    ParseStats E { p with numRoutine := 1 } lines order1
        = ParseStats E { p with numRoutine := (lines.length : Int) } lines order2
    ∧ Parse E { p with numRoutine := 1 } lines order1
        = Parse E { p with numRoutine := (lines.length : Int) } lines order2 := by
  have e1 := collect_arrivals_any E { p with numRoutine := 1 } lines order1
    (Or.inl (le_refl _)) h1
  have e2 := collect_arrivals_any E { p with numRoutine := (lines.length : Int) } lines order2
    (by
      cases lines with
      | nil => exact Or.inr rfl
      | cons l ls =>
        left
        simp only [List.length_cons, Nat.cast_add, Nat.cast_one]
        omega) h2
  have hs : ParseStats E { p with numRoutine := 1 } lines order1
      = ParseStats E { p with numRoutine := (lines.length : Int) } lines order2 := by
    simp only [ParseStats, e1, e2]
    rw [aggLoop_flags E { p with numRoutine := 1 } { p with numRoutine := (lines.length : Int) }
      rfl rfl]
  exact ⟨hs, by simp only [Parse, hs]⟩

theorem Parse_worker_count_independent_witness :
    ParseStats demoExt { (Parser.mk [] false 7 true) with numRoutine := 1 }
        ["a=b".toList, [], "noise".toList] [0, 1, 2]
      = ParseStats demoExt { (Parser.mk [] false 7 true) with
          numRoutine := ((["a=b".toList, [], "noise".toList] : List Str).length : Int) }
        ["a=b".toList, [], "noise".toList] [2, 0, 1]
    ∧ Parse demoExt { (Parser.mk [] false 7 true) with numRoutine := 1 }
        ["a=b".toList, [], "noise".toList] [0, 1, 2]
      = Parse demoExt { (Parser.mk [] false 7 true) with
          numRoutine := ((["a=b".toList, [], "noise".toList] : List Str).length : Int) }
        ["a=b".toList, [], "noise".toList] [2, 0, 1] :=
  Parse_worker_count_independent demoExt (Parser.mk [] false 7 true)
    ["a=b".toList, [], "noise".toList] [0, 1, 2] [2, 0, 1] (by decide) (by decide)

/-! ## The timestamp extraction -/

theorem Index_eq_none_iff (s : Str) (c : Char) : Index s c = none ↔ c ∉ s := by
  induction s with
  | nil => simp [Index]
  | cons x xs ih =>
    by_cases h : x = c
    · simp [Index, h]
    · simp [Index, h, ih, Ne.symm h]

theorem Index_isSome_iff (s : Str) (c : Char) : (∃ i, Index s c = some i) ↔ c ∈ s := by
  rw [← not_iff_not, ← Index_eq_none_iff]
  cases Index s c <;> simp

theorem getTimestampID_fst (E : Ext) (t : Str) (d : Data) :
    (getTimestampID E t d).1 = true ↔ ':' ∈ TrimSuffix (TrimPrefix t auditOpen) [')'] := by
  rw [← Index_isSome_iff]
  unfold getTimestampID SplitN2
  simp only
  cases Index (TrimSuffix (TrimPrefix t auditOpen) [')']) ':' <;> simp

theorem getTimestampID_has (E : Ext) (t : Str) (d : Data)
    (h : (getTimestampID E t d).1 = true) :
    Data.has (getTimestampID E t d).2 msgTimestampKey = true
      ∧ Data.has (getTimestampID E t d).2 msgIdKey = true := by
  have hne : msgTimestampKey ≠ msgIdKey := by decide
  unfold getTimestampID at h ⊢
  simp only at h ⊢
  split
  · simp only [Data.has, Data.get_put_self, Data.get_put_ne _ _ hne, Option.isSome_some, and_true]
    split <;> simp [Data.get_put_self]
  · rename_i hx
    split at h
    · rename_i a0 a1 heq
      exact absurd heq (hx a0 a1)
    · exact absurd h (by simp)

theorem TrimSuffix_of_not_suffix (s suf : Str) (h : HasSuffix s suf = false) :
    TrimSuffix s suf = s := by
  simp [TrimSuffix, h]

theorem HasSuffix_colon_of_audit (v : Str) (hv : HasPrefix v auditOpen = true)
    (hc : ':' ∉ TrimSuffix (TrimPrefix v auditOpen) [')']) : HasSuffix v colon = false := by
  rw [Bool.eq_false_iff]
  intro hs
  have hv2 := hv
  simp only [HasPrefix] at hv2
  rw [List.isPrefixOf_iff_prefix] at hv2
  obtain ⟨w, rfl⟩ := hv2
  have htp : TrimPrefix (auditOpen ++ w) auditOpen = w := by
    simp [TrimPrefix, hv]
  rw [htp] at hc
  simp only [HasSuffix, colon] at hs
  rw [List.isSuffixOf_iff_suffix] at hs
  obtain ⟨u, hu⟩ := hs
  rcases List.eq_nil_or_concat w with rfl | ⟨w1, c, rfl⟩
  · have := congrArg List.getLast? hu
    simp [auditOpen] at this
  · rw [List.concat_eq_append] at hu hc
    have hlast := congrArg List.getLast? hu
    rw [← List.append_assoc, List.getLast?_concat, List.getLast?_concat] at hlast
    simp only [Option.some.injEq] at hlast
    subst hlast
    have hns : HasSuffix (w1 ++ [':']) [')'] = false := by
      rw [Bool.eq_false_iff]
      intro h
      simp only [HasSuffix] at h
      rw [List.isSuffixOf_iff_suffix] at h
      obtain ⟨x, hx⟩ := h
      have := congrArg List.getLast? hx
      simp at this
    apply hc
    simp [TrimSuffix, hns]

/-- C15: for a value that starts with `audit(` once one trailing `:` is
removed, `processSpace` with the key `msg` does this. If the text between
`audit(` and a trailing `)` holds a `:`, `getTimestampID` returns true, the
record after `processSpace` is the one `getTimestampID` leaves, both derived
keys are present, and every entry other than `msg_timestamp` and `msg_id` is as
it was (so nothing is stored under `msg` or a numbered `msg_N`). If it holds no
`:`, `getTimestampID` returns false and leaves the record as it was, and the
value is stored under `msg` through `setData`. For an empty key `processSpace`
leaves the record as it was. -/
theorem processSpace_msg_audit (E : Ext) (data : Data) (v : Str)
    (hv : HasPrefix (TrimSuffix v colon) auditOpen = true) :
    (':' ∈ TrimSuffix (TrimPrefix (TrimSuffix v colon) auditOpen) [')'] →
      (getTimestampID E (TrimSuffix v colon) data).1 = true
      ∧ processSpace E msgKey v data = (getTimestampID E (TrimSuffix v colon) data).2
      ∧ Data.has (processSpace E msgKey v data) msgTimestampKey = true
      ∧ Data.has (processSpace E msgKey v data) msgIdKey = true
      ∧ ∀ j, j ≠ msgTimestampKey → j ≠ msgIdKey →
          Data.get (processSpace E msgKey v data) j = Data.get data j)
    ∧ (':' ∉ TrimSuffix (TrimPrefix (TrimSuffix v colon) auditOpen) [')'] →
      getTimestampID E (TrimSuffix v colon) data = (false, data)
      ∧ processSpace E msgKey v data = setData msgKey (Value.str (TrimSuffix v colon)) data)
    ∧ ∀ (tmp : Str) (d : Data), processSpace E [] tmp d = d := by
  have hmsg : msgKey ≠ [] := by decide
  have hcond : msgKey = msgKey ∧ HasPrefix (TrimSuffix v colon) auditOpen = true := ⟨rfl, hv⟩
  refine ⟨fun hc => ?_, fun hc => ?_, fun tmp d => processSpace_nil_key E tmp d⟩
  · have h1 := (getTimestampID_fst E (TrimSuffix v colon) data).2 hc
    have hps : processSpace E msgKey v data = (getTimestampID E (TrimSuffix v colon) data).2 := by
      unfold processSpace
      simp only [hmsg, if_false, strip_guard]
      simp [hv, h1]
    obtain ⟨h2, h3⟩ := getTimestampID_has E _ data h1
    refine ⟨h1, hps, by rw [hps]; exact h2, by rw [hps]; exact h3, fun j hj1 hj2 => ?_⟩
    rw [hps]
    exact getTimestampID_get E _ data j hj1 hj2
  · have h1 : (getTimestampID E (TrimSuffix v colon) data).1 = false := by
      rw [Bool.eq_false_iff]
      exact fun h => hc ((getTimestampID_fst E _ data).1 h)
    have h2 := getTimestampID_false E _ data h1
    have hns := HasSuffix_colon_of_audit (TrimSuffix v colon) hv hc
    have htw : TrimSuffix (TrimSuffix v colon) colon = TrimSuffix v colon :=
      TrimSuffix_of_not_suffix _ _ hns
    refine ⟨Prod.ext h1 h2, ?_⟩
    unfold processSpace
    simp only [hmsg, if_false, strip_guard]
    simp [hv, h1, h2, htw]

theorem processSpace_msg_audit_witness :
    (':' ∈ TrimSuffix (TrimPrefix (TrimSuffix "audit(111111:222):".toList colon) auditOpen) [')'] →
      (getTimestampID demoExt (TrimSuffix "audit(111111:222):".toList colon) []).1 = true
      ∧ processSpace demoExt msgKey "audit(111111:222):".toList []
          = (getTimestampID demoExt (TrimSuffix "audit(111111:222):".toList colon) []).2
      ∧ Data.has (processSpace demoExt msgKey "audit(111111:222):".toList []) msgTimestampKey
          = true
      ∧ Data.has (processSpace demoExt msgKey "audit(111111:222):".toList []) msgIdKey = true
      ∧ ∀ j, j ≠ msgTimestampKey → j ≠ msgIdKey →
          Data.get (processSpace demoExt msgKey "audit(111111:222):".toList []) j
            = Data.get [] j)
    ∧ (':' ∉ TrimSuffix (TrimPrefix (TrimSuffix "audit(111111:222):".toList colon) auditOpen)
          [')'] →
      getTimestampID demoExt (TrimSuffix "audit(111111:222):".toList colon) [] = (false, [])
      ∧ processSpace demoExt msgKey "audit(111111:222):".toList []
          = setData msgKey (Value.str (TrimSuffix "audit(111111:222):".toList colon)) [])
    ∧ ∀ (tmp : Str) (d : Data), processSpace demoExt [] tmp d = d :=
  processSpace_msg_audit demoExt [] "audit(111111:222):".toList (by decide)

theorem TrimPrefix_append (pre x : Str) : TrimPrefix (pre ++ x) pre = x := by
  have h : HasPrefix (pre ++ x) pre = true := by
    simp only [HasPrefix]
    rw [List.isPrefixOf_iff_prefix]
    exact List.prefix_append pre x
  simp [TrimPrefix, h]

theorem TrimSuffix_append (x suf : Str) : TrimSuffix (x ++ suf) suf = x := by
  have h : HasSuffix (x ++ suf) suf = true := by
    simp only [HasSuffix]
    rw [List.isSuffixOf_iff_suffix]
    exact List.suffix_append x suf
  simp [TrimSuffix, h]

theorem SplitN2_append (w rest : Str) (c : Char) (hw : c ∉ w) :
    SplitN2 (w ++ c :: rest) c = [w, rest] := by
  simp only [SplitN2, Index_append_of_not_mem w rest c hw]
  have h1 : List.take w.length (w ++ c :: rest) = w := by simp
  have h2 : List.drop (w.length + 1) (w ++ c :: rest) = rest := by
    rw [show w ++ c :: rest = (w ++ [c]) ++ rest by simp]
    exact List.drop_left' (by simp)
  rw [h1, h2]

/-- C16: on `audit(T:I)`, where `T` is `a.b` with the first `.` between `a` and
`b` and no `:` inside, `getTimestampID` returns true and asks the time parser
for `a ++ b`, the text `T` with that `.` removed. `msg_timestamp` is the
formatter's output for the parsed time when the time parser succeeds and the
trimmed, otherwise untouched `T` when it fails; `msg_id` is the trimmed `I`. -/
theorem getTimestampID_dotted (E : Ext) (data : Data) (a b I : Str)
    (hdot : '.' ∉ a) (hca : ':' ∉ a) (hcb : ':' ∉ b) :
    getTimestampID E (auditOpen ++ ((a ++ '.' :: b) ++ ':' :: (I ++ [')']))) data
      = (true, Data.put
          (Data.put data msgTimestampKey (Value.str
            (match E.GetTime (a ++ b) with
              | some tm => E.FormatWithUserOption tm
              | none => TrimSpace (a ++ '.' :: b))))
          msgIdKey (Value.str (TrimSpace I)))
    ∧ Data.get (getTimestampID E
          (auditOpen ++ ((a ++ '.' :: b) ++ ':' :: (I ++ [')']))) data).2 msgTimestampKey
        = some (Value.str
            (match E.GetTime (a ++ b) with
              | some tm => E.FormatWithUserOption tm
              | none => TrimSpace (a ++ '.' :: b)))
    ∧ Data.get (getTimestampID E
          (auditOpen ++ ((a ++ '.' :: b) ++ ':' :: (I ++ [')']))) data).2 msgIdKey
        = some (Value.str (TrimSpace I)) := by
  have hT : ':' ∉ a ++ '.' :: b := by
    have hne : (':' : Char) ≠ '.' := by decide
    simp [hca, hcb, hne]
  have e1 : TrimSuffix (TrimPrefix (auditOpen ++ ((a ++ '.' :: b) ++ ':' :: (I ++ [')'])))
      auditOpen) [')'] = (a ++ '.' :: b) ++ ':' :: I := by
    rw [TrimPrefix_append]
    have : (a ++ '.' :: b) ++ ':' :: (I ++ [')']) = ((a ++ '.' :: b) ++ ':' :: I) ++ [')'] := by
      simp
    rw [this, TrimSuffix_append]
  have e2 : SplitN2 ((a ++ '.' :: b) ++ ':' :: I) ':' = [a ++ '.' :: b, I] :=
    SplitN2_append _ I ':' hT
  have e3 : Index (a ++ '.' :: b) '.' = some a.length := Index_append_of_not_mem a b '.' hdot
  have hres : getTimestampID E (auditOpen ++ ((a ++ '.' :: b) ++ ':' :: (I ++ [')']))) data
      = (true, Data.put
          (Data.put data msgTimestampKey (Value.str
            (match E.GetTime (a ++ b) with
              | some tm => E.FormatWithUserOption tm
              | none => TrimSpace (a ++ '.' :: b))))
          msgIdKey (Value.str (TrimSpace I))) := by
    unfold getTimestampID
    simp only [e1, e2, e3]
    have e4 : List.take a.length (a ++ '.' :: b) ++ List.drop (a.length + 1) (a ++ '.' :: b)
        = a ++ b := by
      simp
    rw [e4]
    cases E.GetTime (a ++ b) <;> rfl
  have hne : msgTimestampKey ≠ msgIdKey := by decide
  refine ⟨hres, ?_, ?_⟩
  · rw [hres]
    simp only
    rw [Data.get_put_ne _ _ hne, Data.get_put_self]
  · rw [hres]
    exact Data.get_put_self _ _ _

theorem getTimestampID_dotted_witness :
    getTimestampID demoExt (auditOpen ++
        (("1364481363".toList ++ '.' :: "243".toList) ++ ':' :: ("24287".toList ++ [')']))) []
      = (true, Data.put
          (Data.put [] msgTimestampKey (Value.str
            (match demoExt.GetTime ("1364481363".toList ++ "243".toList) with
              | some tm => demoExt.FormatWithUserOption tm
              | none => TrimSpace ("1364481363".toList ++ '.' :: "243".toList))))
          msgIdKey (Value.str (TrimSpace "24287".toList)))
    ∧ Data.get (getTimestampID demoExt (auditOpen ++
        (("1364481363".toList ++ '.' :: "243".toList) ++ ':' :: ("24287".toList ++ [')']))) []).2
          msgTimestampKey
        = some (Value.str
            (match demoExt.GetTime ("1364481363".toList ++ "243".toList) with
              | some tm => demoExt.FormatWithUserOption tm
              | none => TrimSpace ("1364481363".toList ++ '.' :: "243".toList)))
    ∧ Data.get (getTimestampID demoExt (auditOpen ++
        (("1364481363".toList ++ '.' :: "243".toList) ++ ':' :: ("24287".toList ++ [')']))) []).2
          msgIdKey
        = some (Value.str (TrimSpace "24287".toList)) :=
  getTimestampID_dotted demoExt [] "1364481363".toList "243".toList "24287".toList
    (by decide) (by decide) (by decide)

/-! ## The number of workers -/

/-- C17, as amended: for every `Parser` with `numRoutine` at least 1 and every
non-empty batch, the number of workers `Parser.Parse` starts is
`min(numRoutine, lineCount)` and at least 1; and `NewParser` builds such a
`Parser` whenever `MaxProcs` is not negative. -/
theorem startedWorkers_min (p : Parser) (lines : List Str)
    (hp : 1 ≤ p.numRoutine) (hn : lines ≠ []) :
    ((startedWorkers p lines.length : Nat) : Int) = min p.numRoutine (lines.length : Int)
    ∧ 1 ≤ startedWorkers p lines.length
    ∧ ∀ (name : Str) (d k : Bool) (MaxProcs : Int), 0 ≤ MaxProcs →
        1 ≤ (NewParser name d k MaxProcs).numRoutine := by
  have hlen : 1 ≤ lines.length := by
    cases lines with
    | nil => exact absurd rfl hn
    | cons a l => simp
  refine ⟨?_, ?_, ?_⟩
  · unfold startedWorkers numWorkers
    split
    · rw [Int.toNat_of_nonneg (by omega)]
      omega
    · rw [Int.toNat_of_nonneg (by omega)]
      omega
  · unfold startedWorkers numWorkers
    split <;> omega
  · intro name d k M hM
    simp only [NewParser]
    split <;> omega

theorem startedWorkers_min_witness :
    ((startedWorkers (NewParser "audit".toList false false 8)
        ["a=b".toList, "c=d".toList].length : Nat) : Int)
      = min (NewParser "audit".toList false false 8).numRoutine
          (["a=b".toList, "c=d".toList].length : Int)
    ∧ 1 ≤ startedWorkers (NewParser "audit".toList false false 8)
        ["a=b".toList, "c=d".toList].length
    ∧ ∀ (name : Str) (d k : Bool) (MaxProcs : Int), 0 ≤ MaxProcs →
        1 ≤ (NewParser name d k MaxProcs).numRoutine :=
  startedWorkers_min (NewParser "audit".toList false false 8) ["a=b".toList, "c=d".toList]
    (by decide) (by decide)

/-- C17 fails as stated: a `Parser` with `numRoutine` 0 (the zero value, as in
`Parser{name: TypeLinuxAudit}`) starts no worker on a batch of one line, and
`Parser.Parse` then returns no row and a nil error. -/
theorem startedWorkers_min_counterexample :
    startedWorkers (Parser.mk "linuxaudit".toList false 0 false)
        ["type=SYSCALL".toList].length = 0
    ∧ Parse demoExt (Parser.mk "linuxaudit".toList false 0 false)
        ["type=SYSCALL".toList] [0] = some ([], none) := by
  constructor <;> rfl

/-! ## The shape of the record `parse` returns -/

theorem Data.mem_put (d : Data) (k : Str) (v : Value) (e : Str × Value)
    (h : e ∈ Data.put d k v) : e ∈ d ∨ e = (k, v) := by
  induction d with
  | nil =>
    simp only [Data.put, List.mem_singleton] at h
    exact Or.inr h
  | cons a t ih =>
    obtain ⟨k1, v1⟩ := a
    by_cases hk : k1 = k
    · simp only [Data.put, hk, if_true, List.mem_cons] at h
      rcases h with h | h
      · exact Or.inr h
      · exact Or.inl (List.mem_cons_of_mem _ h)
    · simp only [Data.put, hk, if_false, List.mem_cons] at h
      rcases h with h | h
      · exact Or.inl (by rw [h]; exact List.mem_cons_self _ _)
      · rcases ih h with h1 | h1
        · exact Or.inl (List.mem_cons_of_mem _ h1)
        · exact Or.inr h1

theorem setData_inv (Q : Str × Value → Prop) (key : Str) (v : Value) (d : Data)
    (hd : ∀ e ∈ d, Q e)
    (hv : ∀ k1, (k1 = key ∨ ∃ i ∈ [1, 2, 3, 4], k1 = altKey key i) → Q (k1, v)) :
    ∀ e ∈ setData key v d, Q e := by
  intro e he
  by_cases hk : key = []
  · rw [hk, setData_nil_key] at he
    exact hd e he
  · by_cases hp : Data.has d key = true
    · rw [setData_occupied key v d hk hp] at he
      rcases Data.mem_put _ _ _ _ he with h | h
      · exact hd e h
      · rw [h]
        apply hv
        rcases firstFree_cases key d with h1 | ⟨i, hi, h1⟩
        · exact Or.inl h1
        · exact Or.inr ⟨i, hi, h1⟩
    · have hp2 : Data.has d key = false := by simpa using hp
      simp only [setData, hk, if_false, hp2, Bool.not_false, if_true] at he
      rcases Data.mem_put _ _ _ _ he with h | h
      · exact hd e h
      · rw [h]
        exact hv _ (Or.inl rfl)

theorem clean_altKey (key : Str) (hk : clean key) (i : Nat) (hi : i ∈ [1, 2, 3, 4]) :
    clean (altKey key i) := by
  simp only [List.mem_cons, List.mem_singleton, List.not_mem_nil, or_false] at hi
  intro c hc
  have hc2 : c ∈ key ∨ c = '_' ∨ c ∈ Itoa i := by
    simpa [altKey, or_assoc] using hc
  rcases hc2 with h | h | h
  · exact hk c h
  · rw [h]
    decide
  · rcases hi with rfl | rfl | rfl | rfl
    · have h1 : Itoa 1 = ['1'] := rfl
      have : c = '1' := by simpa [h1] using h
      rw [this]
      decide
    · have h2 : Itoa 2 = ['2'] := rfl
      have : c = '2' := by simpa [h2] using h
      rw [this]
      decide
    · have h3 : Itoa 3 = ['3'] := rfl
      have : c = '3' := by simpa [h3] using h
      rw [this]
      decide
    · have h4 : Itoa 4 = ['4'] := rfl
      have : c = '4' := by simpa [h4] using h
      rw [this]
      decide

theorem clean_TrimSuffix (s suf : Str) (h : clean s) : clean (TrimSuffix s suf) :=
  fun c hc => h c ((TrimSuffix_initial s suf).subset hc)

theorem clean_TrimPrefix (s pre : Str) (h : clean s) : clean (TrimPrefix s pre) := by
  intro c hc
  unfold TrimPrefix at hc
  split at hc
  · exact h c (List.mem_of_mem_drop hc)
  · exact h c hc

theorem clean_TrimSpace (s : Str) (h : clean s) : clean (TrimSpace s) := by
  intro c hc
  unfold TrimSpace at hc
  rw [List.mem_reverse] at hc
  have h1 := (List.dropWhile_sublist isSpace).subset hc
  rw [List.mem_reverse] at h1
  exact h c ((List.dropWhile_sublist isSpace).subset h1)

theorem setData_str_inv (E : Ext) (Q : Str × Value → Prop) (hQ : ∀ e, leafOK E e → Q e)
    (key s : Str) (d : Data) (hd : ∀ e ∈ d, Q e) (hk : clean key) (hs : clean s) :
    ∀ e ∈ setData key (Value.str s) d, Q e := by
  apply setData_inv Q key _ d hd
  intro k1 hk1
  apply hQ
  refine ⟨?_, s, rfl, Or.inl hs⟩
  rcases hk1 with h | ⟨i, hi, h⟩
  · rw [h]
    exact hk
  · rw [h]
    exact clean_altKey key hk i hi

theorem getTimestampID_inv (E : Ext) (Q : Str × Value → Prop) (hQ : ∀ e, leafOK E e → Q e)
    (t : Str) (d : Data) (hd : ∀ e ∈ d, Q e) (ht : clean t) :
    ∀ e ∈ (getTimestampID E t d).2, Q e := by
  have hT : clean (TrimSuffix (TrimPrefix t auditOpen) [')']) :=
    clean_TrimSuffix _ _ (clean_TrimPrefix _ _ ht)
  have hts : clean msgTimestampKey := by decide
  have hid : clean msgIdKey := by decide
  intro e he
  unfold getTimestampID at he
  simp only [SplitN2] at he
  cases hi : Index (TrimSuffix (TrimPrefix t auditOpen) [')']) ':' with
  | none =>
    simp only [hi] at he
    exact hd e he
  | some i =>
    simp only [hi] at he
    have h0 : clean (TrimSpace (List.take i (TrimSuffix (TrimPrefix t auditOpen) [')']))) :=
      clean_TrimSpace _ (fun c hc => hT c (List.mem_of_mem_take hc))
    have h1 : clean (TrimSpace (List.drop (i + 1) (TrimSuffix (TrimPrefix t auditOpen) [')']))) :=
      clean_TrimSpace _ (fun c hc => hT c (List.mem_of_mem_drop hc))
    rcases Data.mem_put _ _ _ _ he with h | h
    · split at h
      · rcases Data.mem_put _ _ _ _ h with h2 | h2
        · exact hd e h2
        · rw [h2]
          exact hQ _ ⟨hts, _, rfl, Or.inl h0⟩
      · rcases Data.mem_put _ _ _ _ h with h2 | h2
        · exact hd e h2
        · rw [h2]
          exact hQ _ ⟨hts, _, rfl, Or.inr ⟨rfl, _, rfl⟩⟩
    · rw [h]
      exact hQ _ ⟨hid, _, rfl, Or.inl h1⟩

theorem processSpace_inv (E : Ext) (Q : Str × Value → Prop) (hQ : ∀ e, leafOK E e → Q e)
    (key tmp : Str) (d : Data) (hd : ∀ e ∈ d, Q e) (hk : clean key) (ht : clean tmp) :
    ∀ e ∈ processSpace E key tmp d, Q e := by
  by_cases hk0 : key = []
  · rw [hk0, processSpace_nil_key]
    exact hd
  · have ht1 : clean (TrimSuffix tmp colon) := clean_TrimSuffix _ _ ht
    have ht2 : clean (TrimSuffix (TrimSuffix tmp colon) colon) := clean_TrimSuffix _ _ ht1
    have hg := getTimestampID_inv E Q hQ (TrimSuffix tmp colon) d hd ht1
    unfold processSpace
    simp only [hk0, if_false, strip_guard]
    by_cases hc : key = msgKey ∧ HasPrefix (TrimSuffix tmp colon) auditOpen = true
    · rw [if_pos hc]
      by_cases hr : (getTimestampID E (TrimSuffix tmp colon) d).1 = true
      · rw [if_pos hr]
        exact hg
      · rw [if_neg hr]
        exact setData_str_inv E Q hQ key _ _ hg hk ht2
    · rw [if_neg hc]
      simp only [Bool.false_eq_true, if_false]
      exact setData_str_inv E Q hQ key _ _ hd hk ht2

theorem processSubLine_inv (E : Ext) (Q : Str × Value → Prop) (hQ : ∀ e, leafOK E e → Q e)
    (sub : Str → Option (Data × Option Error)) (tmp tmpLine key : Str) (d : Data)
    (hsub : ∀ i, Index tmpLine squote = some i →
      ∃ v, sub (tmpLine.take (i + 1)) = some (v, none) ∧ ∀ k, clean k → Q (k, Value.data v))
    (hd : ∀ e ∈ d, Q e) (hk : clean key) (ht : clean tmp) :
    ∃ d1, processSubLine sub tmp tmpLine key d = some d1 ∧ ∀ e ∈ d1, Q e := by
  unfold processSubLine
  by_cases hk0 : key = []
  · exact ⟨d, by simp [hk0], hd⟩
  · by_cases ht0 : tmp = []
    · simp only [hk0, ht0, if_false, ne_eq, not_true_eq_false]
      cases hi : Index tmpLine squote with
      | none => exact ⟨d, rfl, hd⟩
      | some i =>
        obtain ⟨v, hv, hqv⟩ := hsub i hi
        refine ⟨setData key (Value.data v) d, by simp [hv], ?_⟩
        apply setData_inv Q key _ d hd
        intro k1 hk1
        apply hqv
        rcases hk1 with h | ⟨j, hj, h⟩
        · rw [h]
          exact hk
        · rw [h]
          exact clean_altKey key hk j hj
    · exact ⟨setData key (Value.str (TrimSuffix tmp colon)) d, by simp [hk0, ht0],
        setData_str_inv E Q hQ key _ d hd hk (clean_TrimSuffix _ _ ht)⟩

theorem parseLoop_inv (E : Ext) (Q : Str × Value → Prop) (hQ : ∀ e, leafOK E e → Q e)
    (sub : Str → Option (Data × Option Error)) (rest : Str)
    (hsub : ∀ tmpLine i, (squote :: tmpLine) <:+ rest → Index tmpLine squote = some i →
      ∃ v, sub (tmpLine.take (i + 1)) = some (v, none) ∧ ∀ k, clean k → Q (k, Value.data v))
    (d : Data) (tmp key : Str) (pfx : Bool)
    (hd : ∀ e ∈ d, Q e) (ht : clean tmp) (hk : clean key) :
    ∃ d1, parseLoop E sub rest d tmp key pfx = some d1 ∧ ∀ e ∈ d1, Q e := by
  have hnil : clean ([] : Str) := fun c hc => absurd hc (List.not_mem_nil c)
  induction rest generalizing d tmp key pfx with
  | nil =>
    rw [parseLoop_nil]
    exact ⟨_, rfl, setData_str_inv E Q hQ key _ d hd hk (clean_TrimSuffix _ _ ht)⟩
  | cons c rest ih =>
    have hrest : ∀ tmpLine i, (squote :: tmpLine) <:+ rest → Index tmpLine squote = some i →
        ∃ v, sub (tmpLine.take (i + 1)) = some (v, none)
          ∧ ∀ k, clean k → Q (k, Value.data v) :=
      fun tl i h => hsub tl i (h.trans (List.suffix_cons c rest))
    unfold parseLoop
    by_cases hc : c = squote
    · obtain ⟨d1, hd1, hq1⟩ := processSubLine_inv E Q hQ sub tmp rest key d
        (fun i hi => hsub rest i (by rw [hc]) hi) hd hk ht
      have hsq : clean [squote] := by decide
      simp only [hc, if_true, hd1, Option.map_some']
      split_ifs
      · exact ih hrest d1 _ _ _ hq1 hnil hnil
      · exact ih hrest d1 _ _ _ hq1 hnil hnil
      · exact ih hrest d1 _ _ _ hq1 hnil hnil
      · exact ih hrest d1 _ _ _ hq1 hsq hnil
    · simp only [hc, if_false]
      split_ifs with h1 h2 h3
      · exact ih hrest d _ _ _ hd ht hk
      · exact ih hrest d _ _ _ hd hnil ht
      · exact ih hrest _ _ _ _ (processSpace_inv E Q hQ key tmp d hd hk ht) hnil hnil
      · refine ih hrest d _ _ _ hd ?_ hk
        intro x hx
        rcases List.mem_append.1 hx with hx | hx
        · exact ht x hx
        · rw [List.mem_singleton] at hx
          subst hx
          simp only [Bool.or_eq_true, decide_eq_true_eq, not_or] at h1
          simp [cleanChar, h1.2, h2, h3]

theorem take_Index (l : Str) (c : Char) (i : Nat) (h : Index l c = some i) :
    ∃ w, c ∉ w ∧ l.take (i + 1) = w ++ [c] := by
  induction l generalizing i with
  | nil => simp [Index] at h
  | cons x xs ih =>
    by_cases hx : x = c
    · simp only [Index, hx, if_true, Option.some.injEq] at h
      subst h
      exact ⟨[], List.not_mem_nil c, by simp [hx]⟩
    · simp only [Index, hx, if_false, Option.map_eq_some'] at h
      obtain ⟨j, hj, rfl⟩ := h
      obtain ⟨w, hw, hw2⟩ := ih j hj
      refine ⟨x :: w, ?_, ?_⟩
      · simp only [List.mem_cons, not_or]
        exact ⟨Ne.symm hx, hw⟩
      · rw [List.take_succ_cons, hw2, List.cons_append]

theorem suffix_quoted (w tl : Str) (hw : squote ∉ w) (h : (squote :: tl) <:+ (w ++ [squote])) :
    tl = [] := by
  obtain ⟨u, hu⟩ := h
  rcases List.eq_nil_or_concat tl with rfl | ⟨t1, x, rfl⟩
  · rfl
  · rw [List.concat_eq_append] at hu
    have h1 : (u ++ squote :: t1) ++ [x] = w ++ [squote] := by
      rw [← hu]
      simp
    have h2 := (List.append_inj' h1 rfl).1
    exact absurd (by rw [← h2]; simp) hw

theorem parseLoop_quoted_inv (E : Ext) (sub : Str → Option (Data × Option Error))
    (w : Str) (hw : squote ∉ w) :
    ∃ d, parseLoop E sub (w ++ [squote]) [] [] [] false = some d ∧ ∀ e ∈ d, leafOK E e := by
  have hnil : clean ([] : Str) := fun c hc => absurd hc (List.not_mem_nil c)
  apply parseLoop_inv E (leafOK E) (fun _ h => h) sub (w ++ [squote]) _ [] [] [] false
    (fun e he => absurd he (List.not_mem_nil e)) hnil hnil
  intro tl i htl hi
  rw [suffix_quoted w tl hw htl] at hi
  simp [Index] at hi

theorem parseFuel_quoted_inv (E : Ext) (n : Nat) (w : Str) (hw : squote ∉ w) :
    ∃ d, parseFuel E (n + 1) (w ++ [squote]) = some (d, none) ∧ ∀ e ∈ d, leafOK E e := by
  obtain ⟨d, hd, hq⟩ := parseLoop_quoted_inv E (parseFuel E n) w hw
  refine ⟨d, ?_, hq⟩
  show (parseLoop E (parseFuel E n) (w ++ [squote]) [] [] [] false).map (fun d => (d, none)) = _
  rw [hd]
  rfl

theorem parseFuel_two_inv (E : Ext) (line : Str) :
    ∃ d, parseFuel E 2 line = some (d, none) ∧ ∀ e ∈ d, entryOK E e := by
  have hnil : clean ([] : Str) := fun c hc => absurd hc (List.not_mem_nil c)
  obtain ⟨d, hd, hq⟩ := parseLoop_inv E (entryOK E) (fun _ h => Or.inl h) (parseFuel E 1) line
    (by
      intro tl i _ hi
      obtain ⟨w, hw, hw2⟩ := take_Index tl squote i hi
      obtain ⟨v, hv, hvq⟩ := parseFuel_quoted_inv E 0 w hw
      rw [hw2]
      exact ⟨v, hv, fun k hk => Or.inr ⟨hk, v, rfl, hvq⟩⟩)
    [] [] [] false (fun e he => absurd he (List.not_mem_nil e)) hnil hnil
  refine ⟨d, ?_, hq⟩
  show (parseLoop E (parseFuel E 1) line [] [] [] false).map (fun d => (d, none)) = _
  rw [hd]
  rfl

theorem parse_inv (E : Ext) (line : Str) :
    ∃ d, parse E line = some (d, none) ∧ parseFuel E 2 line = some (d, none)
      ∧ ∀ e ∈ d, entryOK E e := by
  obtain ⟨d, hd, hq⟩ := parseFuel_two_inv E line
  refine ⟨d, ?_, hd, hq⟩
  cases line with
  | nil =>
    have h1 : parseFuel E 2 [] = parseFuel E 1 [] := by simp [parseFuel, parseLoop]
    rw [← hd, h1]
    rfl
  | cons c l =>
    exact parseFuel_le E 2 _ (by simp) _ _ hd

theorem flat_of_leafOK (E : Ext) (d : Data) (h : ∀ e ∈ d, leafOK E e) : flat d = true := by
  unfold flat
  rw [List.all_eq_true]
  intro e he
  obtain ⟨_, s, hs, _⟩ := h e he
  rw [hs]
  rfl

theorem depthOne_of_entryOK (E : Ext) (d : Data) (h : ∀ e ∈ d, entryOK E e) :
    depthOne d = true := by
  unfold depthOne
  rw [List.all_eq_true]
  intro e he
  rcases h e he with ⟨_, s, hs, _⟩ | ⟨_, d1, hd1, hl⟩
  · rw [hs]
  · rw [hd1]
    exact flat_of_leafOK E d1 hl

/-- C18: on every line `Parser.parse` returns a record every value of which is
a string or a nested record whose values are all strings. The recursion through
`processSubLine` has depth at most one: the text handed to the recursive call,
`tmpLine[:suffix+1]`, holds a single quote as its last character and nowhere
else; on such a text `parse` returns a record of strings without calling itself
(fuel 1 is enough); and on every line fuel 2 already gives the result of
`parse`. -/
theorem parse_depth_one (E : Ext) (line : Str) :
    (∃ d, parse E line = some (d, none) ∧ depthOne d = true
      ∧ parseFuel E 2 line = some (d, none))
    ∧ (∀ (tmpLine : Str) (suffix : Nat), Index tmpLine squote = some suffix →
        ∃ w, squote ∉ w ∧ tmpLine.take (suffix + 1) = w ++ [squote])
    ∧ ∀ w : Str, squote ∉ w →
        ∃ v, parseFuel E 1 (w ++ [squote]) = some (v, none) ∧ flat v = true
          ∧ parse E (w ++ [squote]) = some (v, none) := by
  refine ⟨?_, fun tl i hi => take_Index tl squote i hi, fun w hw => ?_⟩
  · obtain ⟨d, h1, h2, hq⟩ := parse_inv E line
    exact ⟨d, h1, depthOne_of_entryOK E d hq, h2⟩
  · obtain ⟨v, hv, hq⟩ := parseFuel_quoted_inv E 0 w hw
    exact ⟨v, hv, flat_of_leafOK E v hq, parseFuel_le E 1 _ (by simp) _ _ hv⟩

/-- C19: on every line the record `Parser.parse` returns has, at top level and
inside every nested record, only keys without double quote, `=` and white
space, and only string values without them, but for a value the time formatter
printed, which stands under `msg_timestamp`. -/
theorem parse_clean (E : Ext) (line : Str) :
    ∃ d, parse E line = some (d, none) ∧ cleanRecord E d
      ∧ ∀ (k : Str) (d1 : Data), (k, Value.data d1) ∈ d → cleanRecord E d1 := by
  obtain ⟨d, h1, _, hq⟩ := parse_inv E line
  have hleaf : ∀ d1 : Data, (∀ e ∈ d1, leafOK E e) → cleanRecord E d1 := by
    intro d1 h k v hkv
    obtain ⟨hk, s, hs, hc⟩ := h (k, v) hkv
    refine ⟨hk, fun s1 hs1 => ?_⟩
    simp only at hs
    rw [hs1] at hs
    cases hs
    exact hc
  refine ⟨d, h1, ?_, ?_⟩
  · intro k v hkv
    rcases hq (k, v) hkv with ⟨hk, s, hs, hc⟩ | ⟨hk, d1, hd1, _⟩
    · refine ⟨hk, fun s1 hs1 => ?_⟩
      simp only at hs
      rw [hs1] at hs
      cases hs
      exact hc
    · refine ⟨hk, fun s1 hs1 => ?_⟩
      simp only at hd1
      rw [hs1] at hd1
      cases hd1
  · intro k d1 hkd
    rcases hq (k, Value.data d1) hkd with ⟨_, s, hs, _⟩ | ⟨_, d2, hd2, hl⟩
    · cases hs
    · simp only at hd2
      cases hd2
      exact hleaf d1 hl

end LinuxAudit
